import Mathlib

set_option linter.unusedSectionVars false

/-!
# Verification of the sort-aggregate executor (`src/batch/src/executor/sort_agg.rs`)

This file gives a shallow embedding of `SortAggExecutor::do_execute` and its
helper functions (`update_sorted_groupers`, `update_agg_states`,
`output_sorted_groupers`, `output_agg_states`, `create_builders`) and proves
the spec's properties about them.

The executor's collaborators (`BoxedSortedGrouper`, `EqGroups::intersect`,
`BoxedAggState`, expression evaluation) live outside the excerpted sources, so
they are modelled from the spec:

* a sorted grouper holds the last-seen value of its key column (`Option K`);
  `detect_groups` returns the ascending list of row indices at which the
  column's value differs from the value immediately preceding it (index 0 is
  compared against the carried-over last value; an absent last value means "no
  previous group", so no boundary at 0);
* `EqGroups::intersect` combines per-column boundary lists into one ascending,
  deduplicated list containing an index iff some column changes there;
* an aggregate state is abstract: an update over a row range `[start, end)`
  and a terminal output, both fallible (`Except`); the executor owns a list of
  such states, all updated over the same ranges.

The executor itself (chunk loop, boundary loop, output builders, capacity
accounting, final flush) is translated from the source. The lazy output
stream is modelled as the list of yielded batches together with an optional
terminal error: batches yielded before an error remain yielded, nothing is
yielded after it.
-/

/-- Modelled from the spec: a change point of one key column. `change_at g col i`
is true iff the value at row `i` differs from the value immediately preceding
it — row `i-1` for `i > 0`, the grouper's carried last value `g` for `i = 0`
(an absent carried value means "no previous group", hence no change). -/
def change_at {K : Type} [DecidableEq K] (g : Option K) (col : List K) (i : Nat) : Bool :=
  match (if i = 0 then g else col[i-1]?), col[i]? with
  | some p, some v => decide (p ≠ v)
  | _, _ => false

/-- Modelled from the spec: `SortedGrouper::detect_groups` — the ascending list
of row indices of `col` at which the key value changes (pure detection, the
carried state `g` is not mutated). -/
def detect_groups {K : Type} [DecidableEq K] (g : Option K) (col : List K) : List Nat :=
  (List.range col.length).filter (change_at g col)

/-- Insert an index into an ascending, deduplicated index list, keeping it
ascending and deduplicated. -/
def insert_index (i : Nat) : List Nat → List Nat
  | [] => [i]
  | j :: js => if i < j then i :: j :: js else if i = j then j :: js else j :: insert_index i js

/-- Merge of two ascending index lists into their ascending, deduplicated
union. -/
def merge_indices (xs ys : List Nat) : List Nat :=
  xs.foldr insert_index ys

/-- Modelled from the spec: `EqGroups::intersect` — a group boundary exists
where any key column changes, so the per-column boundary lists are combined
into one ascending, deduplicated list (their union). Zero key columns give the
empty boundary list. -/
def intersect_groups (ls : List (List Nat)) : List Nat :=
  ls.foldr merge_indices []

/-- Modelled from the spec: `SortedGrouper::update(col, start, end)` advances
the carried last value to the value at row `end - 1`. -/
def grouper_update {K : Type} (col : List K) (_start e : Nat) : Option K :=
  col[e-1]?

/-- One output batch: the finished group-key-echo columns, the finished
aggregate columns (in schema order `[group columns, agg results]`), and the
declared cardinality passed to `DataChunk::new`. -/
structure OutBatch (K A : Type) where
  group_cols : List (List (Option K))
  agg_cols : List (List A)
  card : Nat
deriving DecidableEq, Repr

/-- The local state of `SortAggExecutor::do_execute` between suspension
points: the sorted groupers (one carried last value per key column), the
aggregate states, the group and aggregate column builders, the remaining
output capacity, and the `no_input_data` flag. -/
structure AggSt (K A AggState : Type) where
  sorted_groupers : List (Option K)
  agg_states : List AggState
  group_builders : List (List (Option K))
  agg_builders : List (List A)
  left_capacity : Nat
  no_input_data : Bool
deriving DecidableEq, Repr

section Driver

variable {K Row A AggState E : Type} [DecidableEq K]

/-- `SortAggExecutor::update_sorted_groupers`: update each grouper with its
key column over `[start_row_idx, end_row_idx)`. -/
def update_sorted_groupers (sorted_groupers : List (Option K)) (group_columns : List (List K))
    (start_row_idx end_row_idx : Nat) : List (Option K) :=
  List.zipWith (fun _g col => grouper_update col start_row_idx end_row_idx)
    sorted_groupers group_columns

/-- `SortAggExecutor::update_agg_states`: update every aggregate state over
`[start_row_idx, end_row_idx)` of the chunk; the first error aborts. -/
def update_agg_states (aggUpdate : AggState → List Row → Nat → Nat → Except E AggState)
    (agg_states : List AggState) (child_chunk : List Row)
    (start_row_idx end_row_idx : Nat) : Except E (List AggState) :=
  match agg_states with
  | [] => .ok []
  | s :: ss =>
    match aggUpdate s child_chunk start_row_idx end_row_idx with
    | .error e => .error e
    | .ok s1 =>
      match update_agg_states aggUpdate ss child_chunk start_row_idx end_row_idx with
      | .error e => .error e
      | .ok ss1 => .ok (s1 :: ss1)

/-- `SortAggExecutor::output_sorted_groupers`: each grouper appends its
carried last value to its group-key-echo column builder. -/
def output_sorted_groupers (sorted_groupers : List (Option K))
    (group_builders : List (List (Option K))) : List (List (Option K)) :=
  List.zipWith (fun g b => b ++ [g]) sorted_groupers group_builders

/-- `SortAggExecutor::output_agg_states`: each aggregate state writes its
current value to its output column builder (the state may be replaced, e.g.
reset, by the output call); the first error aborts. -/
def output_agg_states (aggOutput : AggState → Except E (A × AggState))
    (agg_states : List AggState) (agg_builders : List (List A)) :
    Except E (List AggState × List (List A)) :=
  match agg_states, agg_builders with
  | s :: ss, b :: bs =>
    match aggOutput s with
    | .error e => .error e
    | .ok (a, s1) =>
      match output_agg_states aggOutput ss bs with
      | .error e => .error e
      | .ok (ss1, bs1) => .ok (s1 :: ss1, (b ++ [a]) :: bs1)
  | _, _ => .ok ([], [])

/-- Evaluate one key expression against every row of the (compacted) chunk,
producing one key column; the first error aborts. -/
def eval_column (e : Row → Except E K) : List Row → Except E (List K)
  | [] => .ok []
  | r :: rs =>
    match e r with
    | .error err => .error err
    | .ok v =>
      match eval_column e rs with
      | .error err => .error err
      | .ok vs => .ok (v :: vs)

/-- Evaluate every key expression against the chunk (`expr.eval(&child_chunk)`
for each group-key expression, in order); the first error aborts. -/
def eval_key_columns (keyExprs : List (Row → Except E K)) (rows : List Row) :
    Except E (List (List K)) :=
  match keyExprs with
  | [] => .ok []
  | e :: es =>
    match eval_column e rows with
    | .error err => .error err
    | .ok col =>
      match eval_key_columns es rows with
      | .error err => .error err
      | .ok cols => .ok (col :: cols)

/-- `SortAggExecutor::create_builders`: one fresh (empty) column builder per
group-key expression and per aggregate state. -/
def create_builders (keyExprs : List (Row → Except E K)) (agg_states : List AggState) :
    List (List (Option K)) × List (List A) :=
  (keyExprs.map (fun _ => []), agg_states.map (fun _ => ([] : List A)))

/-- Closing the current group: emit the grouper and aggregate outputs into the
builders, decrement the remaining capacity, and if it reaches zero finish the
builders into a full output batch (declared cardinality `output_size_limit`),
yield it, and reset builders and capacity. -/
def close_group (output_size_limit : Nat) (keyExprs : List (Row → Except E K))
    (aggOutput : AggState → Except E (A × AggState)) (st : AggSt K A AggState) :
    Except E (List (OutBatch K A) × AggSt K A AggState) :=
  let gb1 := output_sorted_groupers st.sorted_groupers st.group_builders
  match output_agg_states aggOutput st.agg_states st.agg_builders with
  | .error e => .error e
  | .ok (aggs1, ab1) =>
    let cap1 := st.left_capacity - 1
    if cap1 = 0 then
      let (gb2, ab2) := create_builders keyExprs aggs1
      .ok ([⟨gb1, ab1, output_size_limit⟩],
           { st with agg_states := aggs1, group_builders := gb2, agg_builders := ab2,
                     left_capacity := output_size_limit })
    else
      .ok ([], { st with agg_states := aggs1, group_builders := gb1, agg_builders := ab1,
                         left_capacity := cap1 })

/-- The body of the boundary loop for one boundary index `i`: if there are
unconsumed rows before `i` (`start_row_idx < i`), update groupers and
aggregate states over `[start_row_idx, i)`; then unconditionally close the
group that ends at `i`. -/
def boundary_step (output_size_limit : Nat) (keyExprs : List (Row → Except E K))
    (aggUpdate : AggState → List Row → Nat → Nat → Except E AggState)
    (aggOutput : AggState → Except E (A × AggState))
    (rows : List Row) (cols : List (List K)) (start_row_idx i : Nat)
    (st : AggSt K A AggState) : Except E (List (OutBatch K A) × AggSt K A AggState) :=
  if start_row_idx < i then
    let gs1 := update_sorted_groupers st.sorted_groupers cols start_row_idx i
    match update_agg_states aggUpdate st.agg_states rows start_row_idx i with
    | .error e => .error e
    | .ok aggs1 =>
      close_group output_size_limit keyExprs aggOutput
        { st with sorted_groupers := gs1, agg_states := aggs1 }
  else
    close_group output_size_limit keyExprs aggOutput st

/-- The boundary loop (`for i in groups.indices`): process each boundary in
ascending order, collecting yielded batches; returns the final state and the
final `start_row_idx`. On error, the batches already yielded are kept and the
error is terminal. -/
def run_boundaries (output_size_limit : Nat) (keyExprs : List (Row → Except E K))
    (aggUpdate : AggState → List Row → Nat → Nat → Except E AggState)
    (aggOutput : AggState → Except E (A × AggState))
    (rows : List Row) (cols : List (List K)) :
    List Nat → Nat → AggSt K A AggState →
    List (OutBatch K A) × Except E (AggSt K A AggState × Nat)
  | [], start_row_idx, st => ([], .ok (st, start_row_idx))
  | i :: is, start_row_idx, st =>
    match boundary_step output_size_limit keyExprs aggUpdate aggOutput rows cols
        start_row_idx i st with
    | .error e => ([], .error e)
    | .ok (bs1, st1) =>
      let rest := run_boundaries output_size_limit keyExprs aggUpdate aggOutput rows cols is i st1
      (bs1 ++ rest.1, rest.2)

/-- The tail of the per-chunk processing after boundary detection: run the
boundary loop, then update groupers and aggregate states over the trailing
`[start_row_idx, row_cnt)` (the still-open group carried into the next
chunk). -/
def chunk_tail (output_size_limit : Nat) (keyExprs : List (Row → Except E K))
    (aggUpdate : AggState → List Row → Nat → Nat → Except E AggState)
    (aggOutput : AggState → Except E (A × AggState))
    (rows : List Row) (cols : List (List K)) (groups : List Nat)
    (st : AggSt K A AggState) : List (OutBatch K A) × Except E (AggSt K A AggState) :=
  match run_boundaries output_size_limit keyExprs aggUpdate aggOutput rows cols groups 0 st with
  | (bs, .error e) => (bs, .error e)
  | (bs, .ok (st1, start_row_idx)) =>
    let row_cnt := rows.length
    if start_row_idx < row_cnt then
      let gs1 := update_sorted_groupers st1.sorted_groupers cols start_row_idx row_cnt
      match update_agg_states aggUpdate st1.agg_states rows start_row_idx row_cnt with
      | .error e => (bs, .error e)
      | .ok aggs1 => (bs, .ok { st1 with sorted_groupers := gs1, agg_states := aggs1 })
    else (bs, .ok st1)

/-- Per-chunk processing of the already-compacted visible rows: evaluate the
key expressions, detect and intersect group boundaries, and run the boundary
loop and trailing update. -/
def process_rows (output_size_limit : Nat) (keyExprs : List (Row → Except E K))
    (aggUpdate : AggState → List Row → Nat → Nat → Except E AggState)
    (aggOutput : AggState → Except E (A × AggState))
    (rows : List Row) (st : AggSt K A AggState) :
    List (OutBatch K A) × Except E (AggSt K A AggState) :=
  match eval_key_columns keyExprs rows with
  | .error e => ([], .error e)
  | .ok cols =>
    let groups := intersect_groups
      (List.zipWith (fun g col => detect_groups g col) st.sorted_groupers cols)
    chunk_tail output_size_limit keyExprs aggUpdate aggOutput rows cols groups st

/-- An input chunk: rows tagged with visibility. `compact` removes the
invisible rows (`DataChunk::compact`); the cardinality of the compacted chunk
is the number of visible rows. -/
def compact {Row : Type} (chunk : List (Row × Bool)) : List Row :=
  (chunk.filter (fun rv => rv.2)).map (fun rv => rv.1)

/-- Process one input chunk: compact it, clear `no_input_data` if it has any
visible row, then process its rows. -/
def process_chunk (output_size_limit : Nat) (keyExprs : List (Row → Except E K))
    (aggUpdate : AggState → List Row → Nat → Nat → Except E AggState)
    (aggOutput : AggState → Except E (A × AggState))
    (st : AggSt K A AggState) (chunk : List (Row × Bool)) :
    List (OutBatch K A) × Except E (AggSt K A AggState) :=
  let rows := compact chunk
  process_rows output_size_limit keyExprs aggUpdate aggOutput rows
    { st with no_input_data := st.no_input_data && rows.isEmpty }

/-- The chunk loop (`for child_chunk in self.child.execute()`): process each
input chunk in order, concatenating the yielded batches; an error is terminal
and keeps the batches already yielded. -/
def process_chunks (output_size_limit : Nat) (keyExprs : List (Row → Except E K))
    (aggUpdate : AggState → List Row → Nat → Nat → Except E AggState)
    (aggOutput : AggState → Except E (A × AggState)) :
    AggSt K A AggState → List (List (Row × Bool)) →
    List (OutBatch K A) × Except E (AggSt K A AggState)
  | st, [] => ([], .ok st)
  | st, c :: cs =>
    match process_chunk output_size_limit keyExprs aggUpdate aggOutput st c with
    | (bs, .error e) => (bs, .error e)
    | (bs, .ok st1) =>
      let rest := process_chunks output_size_limit keyExprs aggUpdate aggOutput st1 cs
      (bs ++ rest.1, rest.2)

/-- The initial driver state: fresh groupers (no last value), the constructed
aggregate states, fresh builders, full capacity, and `no_input_data = true`. -/
def init_state (output_size_limit : Nat) (keyExprs : List (Row → Except E K))
    (initAggs : List AggState) : AggSt K A AggState :=
  { sorted_groupers := keyExprs.map (fun _ => none),
    agg_states := initAggs,
    group_builders := (create_builders (A := A) keyExprs initAggs).1,
    agg_builders := (create_builders (A := A) keyExprs initAggs).2,
    left_capacity := output_size_limit,
    no_input_data := true }

/-- `SortAggExecutor::do_execute`: run the chunk loop, then — unless the group
key is non-empty and no input row was ever observed — close and emit the one
remaining open group into a final batch of declared cardinality
`output_size_limit - left_capacity + 1`. The result is the list of yielded
batches and the optional terminal error of the output stream. -/
def do_execute (output_size_limit : Nat) (keyExprs : List (Row → Except E K))
    (aggUpdate : AggState → List Row → Nat → Nat → Except E AggState)
    (aggOutput : AggState → Except E (A × AggState))
    (initAggs : List AggState) (chunks : List (List (Row × Bool))) :
    List (OutBatch K A) × Option E :=
  match process_chunks output_size_limit keyExprs aggUpdate aggOutput
      (init_state output_size_limit keyExprs initAggs) chunks with
  | (bs, .error e) => (bs, some e)
  | (bs, .ok st) =>
    if st.no_input_data && !keyExprs.isEmpty then (bs, none)
    else
      let gb1 := output_sorted_groupers st.sorted_groupers st.group_builders
      match output_agg_states aggOutput st.agg_states st.agg_builders with
      | .error e => (bs, some e)
      | .ok (_, ab1) =>
        (bs ++ [⟨gb1, ab1, output_size_limit - st.left_capacity + 1⟩], none)

end Driver

/-!
## Concrete instantiation: pure key expressions and fold accumulators

The spec's aggregate contract (`update_multi` folds rows `[start, end)` into
the running state; `output` extracts the value and resets by constructing
fresh state, as the per-group test results show) is realized by a fold
accumulator over a state type `S` with a step function, a terminal extraction
and a default (initial) state. Key expressions that are plain projections of
the row (the typical column references) are realized by total functions.
-/

section Instances

variable {K Row A S E : Type} [DecidableEq K]

/-- Total key expressions: each key column is a pure projection of the row. -/
def pure_exprs (fns : List (Row → K)) : List (Row → Except E K) :=
  fns.map (fun f => fun r => .ok (f r))

/-- `update_multi` of a fold accumulator: fold the step function over rows
`[start, end)` of the chunk. -/
def fold_update (step : S → Row → S) : S → List Row → Nat → Nat → Except E S :=
  fun s rows start_row_idx end_row_idx =>
    .ok (((rows.drop start_row_idx).take (end_row_idx - start_row_idx)).foldl step s)

/-- `output` of a fold accumulator: extract the accumulated value and reset to
the fresh initial state for the next group. -/
def fold_output (out : S → A) (init : S) : S → Except E (A × S) :=
  fun s => .ok (out s, init)

/-- The sort-aggregate executor applied to pure key projections and a single
fold accumulator. -/
def sort_agg_run (fns : List (Row → K)) (init : S) (step : S → Row → S) (out : S → A)
    (output_size_limit : Nat) (chunks : List (List (Row × Bool))) :
    List (OutBatch K A) × Option E :=
  do_execute output_size_limit (pure_exprs fns) (fold_update step) (fold_output out init)
    [init] chunks

end Instances

/-!
## Reference semantics: maximal runs of equal key tuples
-/

section Reference

variable {K Row A S : Type} [DecidableEq K]

/-- The key tuple of a row: the values of all key expressions at that row. -/
def key_tuple (fns : List (Row → K)) (r : Row) : List K :=
  fns.map (fun f => f r)

/-- The maximal contiguous runs of rows sharing the same key tuple, in input
order; each run is its first row together with the remaining rows. -/
def runs_by (fns : List (Row → K)) : List Row → List (Row × List Row)
  | [] => []
  | r :: rs =>
    match runs_by fns rs with
    | [] => [(r, [])]
    | (h, t) :: more =>
      if key_tuple fns r = key_tuple fns h then (r, h :: t) :: more
      else (r, []) :: (h, t) :: more

/-- The rows of a run. -/
def run_rows {Row : Type} (p : Row × List Row) : List Row := p.1 :: p.2

/-- Concatenation of the rows of a list of runs. -/
def runs_flatten {Row : Type} (l : List (Row × List Row)) : List Row :=
  l.foldr (fun p acc => p.1 :: (p.2 ++ acc)) []

/-- The expected aggregate value of a run: the fold of the accumulator over
exactly the run's rows. -/
def run_agg (init : S) (step : S → Row → S) (out : S → A) (p : Row × List Row) : A :=
  out ((p.1 :: p.2).foldl step init)

/-- First occurrences: the distinct elements of a list in the relative order
of their first occurrence. -/
def first_occ_fuel {T : Type} [DecidableEq T] : Nat → List T → List T
  | _, [] => []
  | 0, l => l
  | fuel+1, x :: xs => x :: first_occ_fuel fuel (xs.filter (fun y => y ≠ x))

def first_occurrences {T : Type} [DecidableEq T] (l : List T) : List T :=
  first_occ_fuel l.length l

/-- Column-wise concatenation of two column lists. -/
def cat_cols {C : Type} (xss yss : List (List C)) : List (List C) :=
  List.zipWith (fun a b => a ++ b) xss yss

/-- The group-key-echo columns of a batch list, concatenated column-wise in
yield order. -/
def out_group_cols {K A : Type} (numCols : Nat) (bs : List (OutBatch K A)) :
    List (List (Option K)) :=
  bs.foldr (fun b acc => cat_cols b.group_cols acc) (List.replicate numCols [])

/-- The aggregate-result columns of a batch list, concatenated column-wise in
yield order. -/
def out_agg_cols {K A : Type} (numAggs : Nat) (bs : List (OutBatch K A)) :
    List (List A) :=
  bs.foldr (fun b acc => cat_cols b.agg_cols acc) (List.replicate numAggs [])

/-- All visible input rows of a chunk sequence, in stream order. -/
def all_rows {Row : Type} (chunks : List (List (Row × Bool))) : List Row :=
  (chunks.map compact).flatten

end Reference

/-!
## The row-at-a-time view of the driver

To prove the run-correctness properties we relate the driver (which works
boundary-list-at-a-time with range updates) to an equivalent row-at-a-time
machine, and that machine to the reference `runs_by` semantics.
-/

section MachineDefs

variable {K Row A S : Type} [DecidableEq K]

/-- The grouper states corresponding to a carried previous row: each grouper
holds its key column's value at that row (or nothing). -/
def groupers_of (fns : List (Row → K)) (prev : Option Row) : List (Option K) :=
  fns.map (fun f => prev.map f)

/-- The key columns of a row list. -/
def cols_of (fns : List (Row → K)) (rows : List Row) : List (List K) :=
  fns.map (fun f => rows.map f)

/-- Whether the key tuple changes between the carried previous row and the
next row (no carried row means no change). -/
def tuple_change (fns : List (Row → K)) (prev : Option Row) (r : Row) : Bool :=
  match prev with
  | none => false
  | some pr => decide (key_tuple fns pr ≠ key_tuple fns r)

/-- Absorbing one row into the open group: advance every grouper to the row's
key values and fold the row into every accumulator. -/
def absorb (fns : List (Row → K)) (step : S → Row → S) (r : Row) (st : AggSt K A S) :
    AggSt K A S :=
  { st with sorted_groupers := fns.map (fun f => some (f r)),
            agg_states := st.agg_states.map (fun s => step s r) }

/-- The total (error-free) close of the open group for fold accumulators:
append grouper and accumulator outputs, reset the accumulators, decrement
capacity, and flush a full batch when capacity reaches zero. -/
def close_total (L : Nat) (fns : List (Row → K)) (out : S → A) (init : S)
    (st : AggSt K A S) : List (OutBatch K A) × AggSt K A S :=
  let gb1 := output_sorted_groupers st.sorted_groupers st.group_builders
  let ab1 := List.zipWith (fun s b => b ++ [out s]) st.agg_states st.agg_builders
  let aggs1 := st.agg_states.map (fun _ => init)
  if st.left_capacity - 1 = 0 then
    ([⟨gb1, ab1, L⟩],
     { st with agg_states := aggs1, group_builders := fns.map (fun _ => []),
               agg_builders := aggs1.map (fun _ => []), left_capacity := L })
  else
    ([], { st with agg_states := aggs1, group_builders := gb1, agg_builders := ab1,
                   left_capacity := st.left_capacity - 1 })

/-- The row-at-a-time machine equivalent to the driver's per-chunk loop:
carry the previous row; on a key change close the open group, then absorb the
row into the (possibly fresh) open group. -/
def mrun (L : Nat) (fns : List (Row → K)) (init : S) (step : S → Row → S) (out : S → A) :
    Option Row → AggSt K A S → List Row →
    List (OutBatch K A) × (Option Row × AggSt K A S)
  | prev, st, [] => ([], (prev, st))
  | prev, st, r :: rs =>
    if tuple_change fns prev r then
      let c := close_total L fns out init st
      let rest := mrun L fns init step out (some r) (absorb fns step r c.2) rs
      (c.1 ++ rest.1, rest.2)
    else
      mrun L fns init step out (some r) (absorb fns step r st) rs

/-- Columns of the flattened output: the batch columns in yield order followed
by the still-open builder columns. -/
def flat_g {K A : Type} (bs : List (OutBatch K A)) (gb : List (List (Option K))) :
    List (List (Option K)) :=
  bs.foldr (fun b acc => cat_cols b.group_cols acc) gb

/-- Aggregate columns of the flattened output. -/
def flat_a {K A : Type} (bs : List (OutBatch K A)) (ab : List (List A)) :
    List (List A) :=
  bs.foldr (fun b acc => cat_cols b.agg_cols acc) ab

end MachineDefs

section TailFromDef

variable {K Row A AggState E : Type} [DecidableEq K]

/-- The boundary loop from an arbitrary `start_row_idx`, followed by the
trailing update; `chunk_tail` is this with `start_row_idx = 0`. -/
def tail_from (output_size_limit : Nat) (keyExprs : List (Row → Except E K))
    (aggUpdate : AggState → List Row → Nat → Nat → Except E AggState)
    (aggOutput : AggState → Except E (A × AggState))
    (rows : List Row) (cols : List (List K)) (groups : List Nat) (s : Nat)
    (st : AggSt K A AggState) : List (OutBatch K A) × Except E (AggSt K A AggState) :=
  match run_boundaries output_size_limit keyExprs aggUpdate aggOutput rows cols groups s st with
  | (bs, .error e) => (bs, .error e)
  | (bs, .ok (st1, start_row_idx)) =>
    let row_cnt := rows.length
    if start_row_idx < row_cnt then
      let gs1 := update_sorted_groupers st1.sorted_groupers cols start_row_idx row_cnt
      match update_agg_states aggUpdate st1.agg_states rows start_row_idx row_cnt with
      | .error e => (bs, .error e)
      | .ok aggs1 => (bs, .ok { st1 with sorted_groupers := gs1, agg_states := aggs1 })
    else (bs, .ok st1)

end TailFromDef

/-!
## Canonical machine states

The row-at-a-time machine's reachable states are fully determined by the
closed runs pending in the current partial batch and the rows absorbed into
the open group.
-/

section MStateDefs

variable {K Row A S : Type} [DecidableEq K]

/-- The group-key-echo columns spelled by a list of closed runs: one column
per key expression, one entry (the run's key value) per run. -/
def echo_cols (fns : List (Row → K)) (pend : List (Row × List Row)) :
    List (List (Option K)) :=
  fns.map (fun f => pend.map (fun q => some (f q.1)))

/-- Overwrite the `no_input_data` flag of a driver state. -/
def set_flag (b : Bool) (st : AggSt K A S) : AggSt K A S :=
  { st with no_input_data := b }

/-- The canonical machine state determined by the closed runs `pend` pending
in the current partial batch and the rows `openRows` absorbed so far into the
open group. -/
def mstate (L : Nat) (fns : List (Row → K)) (init : S) (step : S → Row → S)
    (out : S → A) (pend : List (Row × List Row)) (openRows : List Row) (b : Bool) :
    AggSt K A S :=
  { sorted_groupers := groupers_of fns openRows.getLast?,
    agg_states := [openRows.foldl step init],
    group_builders := echo_cols fns pend,
    agg_builders := [pend.map (run_agg init step out)],
    left_capacity := L - pend.length,
    no_input_data := b }

/-- The columns spelled, row-major, by a list of key tuples. -/
def tuple_cols (nk : Nat) (ts : List (List K)) : List (List (Option K)) :=
  ts.foldr (fun t acc => cat_cols (t.map (fun k => [some k])) acc)
    (List.replicate nk [])

end MStateDefs

section InvariantDefs

variable {K Row A AggState : Type} [DecidableEq K]

/-- The state invariant of the boundary/chunk loops. `nk` is the number of
group-key columns, `na` the number of aggregates. -/
def StInv (L nk na : Nat) (st : AggSt K A AggState) : Prop :=
  st.sorted_groupers.length = nk ∧
  st.agg_states.length = na ∧
  st.group_builders.length = nk ∧
  st.agg_builders.length = na ∧
  1 ≤ st.left_capacity ∧ st.left_capacity ≤ L ∧
  (∀ c ∈ st.group_builders, c.length = L - st.left_capacity) ∧
  (∀ c ∈ st.agg_builders, c.length = L - st.left_capacity)

/-- A full in-loop batch: declared cardinality `L`, and all columns of
length `L`. -/
def BatchFull (L nk na : Nat) (b : OutBatch K A) : Prop :=
  b.card = L ∧ b.group_cols.length = nk ∧ b.agg_cols.length = na ∧
  (∀ c ∈ b.group_cols, c.length = L) ∧ (∀ c ∈ b.agg_cols, c.length = L)

end InvariantDefs

/-!
## Concrete witness data

The grouped-`SUM` scenario of the repository's `execute_sum_int32_grouped`
test: `SUM` over column 0, grouped by columns 1 and 2, three input chunks,
`output_size_limit = 4`.
-/

def wFns : List (List Int → Int) := [fun r => r.getD 1 0, fun r => r.getD 2 0]

def wKe : List (List Int → Except Unit Int) := pure_exprs wFns

def wStep : Int → List Int → Int := fun s r => s + r.getD 0 0

def wU : Int → List (List Int) → Nat → Nat → Except Unit Int := fold_update wStep

def wO : Int → Except Unit (Int × Int) := fold_output id 0

def wErrU : Int → List (List Int) → Nat → Nat → Except Unit Int := fun _ _ _ _ => .error ()

def wChunk1 : List (List Int × Bool) :=
  [([1,1,7], true), ([2,1,8], true), ([3,3,8], true), ([4,3,9], true)]

def wChunk2 : List (List Int × Bool) :=
  [([1,3,9], true), ([2,4,9], true), ([3,4,9], true), ([4,5,9], true)]

def wChunk3 : List (List Int × Bool) :=
  [([1,5,9], true), ([2,5,9], true), ([3,5,9], true), ([4,5,9], true)]

def wSt : AggSt Int Int Int :=
  ⟨[some 5, some 9], [14], [[some 4], [some 9]], [[5]], 3, false⟩

def wBatch1 : OutBatch Int Int :=
  ⟨[[some 1, some 1, some 3, some 3], [some 7, some 8, some 8, some 9]], [[1, 2, 3, 5]], 4⟩

def wBatch2 : OutBatch Int Int :=
  ⟨[[some 4, some 5], [some 9, some 9]], [[5, 14]], 2⟩

def wBs0 : List (OutBatch Int Int) := [wBatch1]

/-!
## Basic lemmas about the helper functions
-/

section BasicLemmas

variable {K Row A AggState S E : Type} [DecidableEq K]

theorem eval_column_nil (e : Row → Except E K) :
    eval_column e ([] : List Row) = .ok [] := rfl

theorem eval_key_columns_nil (keyExprs : List (Row → Except E K)) :
    eval_key_columns keyExprs ([] : List Row) = .ok (keyExprs.map (fun _ => [])) := by
  induction keyExprs with
  | nil => rfl
  | cons e es ih => simp [eval_key_columns, eval_column, ih]

theorem eval_column_pure (f : Row → K) (rows : List Row) :
    eval_column (E := E) (fun r => .ok (f r)) rows = .ok (rows.map f) := by
  induction rows with
  | nil => rfl
  | cons r rs ih => simp [eval_column, ih]

theorem eval_key_columns_pure (fns : List (Row → K)) (rows : List Row) :
    eval_key_columns (E := E) (pure_exprs fns) rows =
      .ok (fns.map (fun f => rows.map f)) := by
  induction fns with
  | nil => rfl
  | cons f fs ih => simp [pure_exprs, eval_key_columns, eval_column_pure, ih] at ih ⊢

theorem detect_groups_nil (g : Option K) : detect_groups g ([] : List K) = [] := rfl

theorem intersect_groups_all_nil {ls : List (List Nat)} (h : ∀ l ∈ ls, l = []) :
    intersect_groups ls = [] := by
  induction ls with
  | nil => rfl
  | cons l ls ih =>
    have hl : l = [] := h l (by simp)
    have hrest : intersect_groups ls = [] := ih (fun x hx => h x (by simp [hx]))
    simp only [intersect_groups, List.foldr] at hrest ⊢
    rw [hrest, hl]
    rfl

theorem update_agg_states_fold (step : S → Row → S) (ss : List S) (rows : List Row)
    (a b : Nat) :
    update_agg_states (E := E) (fold_update step) ss rows a b =
      .ok (ss.map (fun s => ((rows.drop a).take (b - a)).foldl step s)) := by
  induction ss with
  | nil => rfl
  | cons s ss ih => simp [update_agg_states, fold_update, ih]

theorem output_agg_states_fold (out : S → A) (init : S) (ss : List S) (bs : List (List A)) :
    output_agg_states (E := E) (fold_output out init) ss bs =
      .ok ((ss.zip bs).map (fun _ => init),
           (ss.zip bs).map (fun p => p.2 ++ [out p.1])) := by
  induction ss generalizing bs with
  | nil => cases bs <;> rfl
  | cons s ss ih =>
    cases bs with
    | nil => rfl
    | cons b bs => simp [output_agg_states, fold_output, ih]

end BasicLemmas

/-!
## Empty chunks are no-ops; the `no_input_data` flag
-/

section EmptyChunk

variable {K Row A AggState E : Type} [DecidableEq K]

theorem zipWith_detect_all_nil (gs : List (Option K)) (cols : List (List K))
    (h : ∀ c ∈ cols, c = []) :
    ∀ l ∈ List.zipWith (fun g col => detect_groups g col) gs cols, l = [] := by
  induction gs generalizing cols with
  | nil => simp
  | cons g gs ih =>
    cases cols with
    | nil => simp
    | cons c cs =>
      intro l hl
      simp only [List.zipWith_cons_cons, List.mem_cons] at hl
      rcases hl with h1 | h2
      · have : c = [] := h c (by simp)
        simp [h1, this, detect_groups_nil]
      · exact ih cs (fun x hx => h x (by simp [hx])) l h2

theorem process_rows_nil (L : Nat) (keyExprs : List (Row → Except E K))
    (aggUpdate : AggState → List Row → Nat → Nat → Except E AggState)
    (aggOutput : AggState → Except E (A × AggState)) (st : AggSt K A AggState) :
    process_rows L keyExprs aggUpdate aggOutput [] st = ([], .ok st) := by
  simp only [process_rows, eval_key_columns_nil]
  have hnil : intersect_groups
      (List.zipWith (fun g col => detect_groups g col) st.sorted_groupers
        (keyExprs.map (fun _ => []))) = [] := by
    apply intersect_groups_all_nil
    apply zipWith_detect_all_nil
    intro c hc
    simp only [List.mem_map] at hc
    obtain ⟨e, _, he⟩ := hc
    exact he.symm
  rw [hnil]
  simp [chunk_tail, run_boundaries]

/-- C10 core: an input chunk with zero visible rows leaves the executor state
completely unchanged and yields nothing. -/
theorem process_chunk_empty_noop (L : Nat) (keyExprs : List (Row → Except E K))
    (aggUpdate : AggState → List Row → Nat → Nat → Except E AggState)
    (aggOutput : AggState → Except E (A × AggState)) (st : AggSt K A AggState)
    (chunk : List (Row × Bool)) (h : compact chunk = []) :
    process_chunk L keyExprs aggUpdate aggOutput st chunk = ([], .ok st) := by
  simp only [process_chunk, h, List.isEmpty_nil, Bool.and_true]
  rw [show ({ st with no_input_data := st.no_input_data } : AggSt K A AggState) = st from rfl]
  exact process_rows_nil L keyExprs aggUpdate aggOutput st

end EmptyChunk

/-!
## The capacity/builder invariant of the driver loop

Between boundary-loop iterations the driver maintains: the builder and state
lists keep their lengths, `1 ≤ left_capacity ≤ output_size_limit`, every
builder column holds exactly `output_size_limit - left_capacity` values, and
every batch yielded inside the loop is full (declared cardinality and column
lengths all equal to `output_size_limit`).
-/

section Invariant

variable {K Row A AggState E : Type} [DecidableEq K]


theorem output_sorted_groupers_len {gs : List (Option K)} {bs : List (List (Option K))} {m : Nat}
    (hl : gs.length = bs.length) (hb : ∀ c ∈ bs, c.length = m) :
    (output_sorted_groupers gs bs).length = bs.length ∧
    ∀ c ∈ output_sorted_groupers gs bs, c.length = m + 1 := by
  induction gs generalizing bs with
  | nil =>
    cases bs with
    | nil => simp [output_sorted_groupers]
    | cons b bs => simp at hl
  | cons g gs ih =>
    cases bs with
    | nil => simp at hl
    | cons b bs =>
      simp only [List.length_cons, Nat.succ.injEq] at hl
      obtain ⟨ih1, ih2⟩ := ih hl (fun c hc => hb c (by simp [hc]))
      constructor
      · simp [output_sorted_groupers] at ih1 ⊢; omega
      · intro c hc
        simp only [output_sorted_groupers, List.zipWith_cons_cons, List.mem_cons] at hc
        rcases hc with h1 | h2
        · simp [h1, hb b (by simp)]
        · exact ih2 c h2

theorem update_agg_states_ok_length
    {aggUpdate : AggState → List Row → Nat → Nat → Except E AggState}
    {ss ss' : List AggState} {rows : List Row} {a b : Nat}
    (h : update_agg_states aggUpdate ss rows a b = .ok ss') : ss'.length = ss.length := by
  induction ss generalizing ss' with
  | nil => simp [update_agg_states] at h; simp [← h]
  | cons s ssr ih =>
    simp only [update_agg_states] at h
    cases h1 : aggUpdate s rows a b with
    | error e => rw [h1] at h; exact absurd h (by simp)
    | ok s1 =>
      rw [h1] at h
      cases h2 : update_agg_states aggUpdate ssr rows a b with
      | error e => rw [h2] at h; exact absurd h (by simp)
      | ok ss1 =>
        rw [h2] at h
        simp only [Except.ok.injEq] at h
        simp [← h, ih h2]

theorem output_agg_states_len {aggOutput : AggState → Except E (A × AggState)}
    {ss ss' : List AggState} {bs bs' : List (List A)} {m : Nat}
    (h : output_agg_states aggOutput ss bs = .ok (ss', bs'))
    (hl : ss.length = bs.length) (hb : ∀ c ∈ bs, c.length = m) :
    ss'.length = ss.length ∧ bs'.length = bs.length ∧ ∀ c ∈ bs', c.length = m + 1 := by
  induction ss generalizing bs ss' bs' with
  | nil =>
    cases bs with
    | nil => simp [output_agg_states] at h; simp [h.1, h.2]
    | cons b bs => simp at hl
  | cons s ssr ih =>
    cases bs with
    | nil => simp at hl
    | cons b bs =>
      simp only [output_agg_states] at h
      cases h1 : aggOutput s with
      | error e => rw [h1] at h; exact absurd h (by simp)
      | ok p =>
        rw [h1] at h
        obtain ⟨a, s1⟩ := p
        cases h2 : output_agg_states aggOutput ssr bs with
        | error e => rw [h2] at h; exact absurd h (by simp)
        | ok q =>
          rw [h2] at h
          obtain ⟨ss1, bs1⟩ := q
          simp only [Except.ok.injEq, Prod.mk.injEq] at h
          simp only [List.length_cons, Nat.succ.injEq] at hl
          obtain ⟨ihl, ihbl, ihc⟩ := ih h2 hl (fun c hc => hb c (by simp [hc]))
          refine ⟨by simp [← h.1, ihl], by simp [← h.2, ihbl], ?_⟩
          intro c hc
          rw [← h.2] at hc
          simp only [List.mem_cons] at hc
          rcases hc with h3 | h4
          · simp [h3, hb b (by simp)]
          · exact ihc c h4

end Invariant


section InvariantSpec

variable {K Row A AggState E : Type} [DecidableEq K]
variable {L nk na : Nat} {keyExprs : List (Row → Except E K)}
variable {aggUpdate : AggState → List Row → Nat → Nat → Except E AggState}
variable {aggOutput : AggState → Except E (A × AggState)}

theorem ok_inj {α ε : Type} {x a : α} (h : (Except.ok x : Except ε α) = .ok a) : x = a := by
  injection h

theorem ok_pair_inj {α β ε : Type} {x a : α} {y b : β}
    (h : (Except.ok (x, y) : Except ε (α × β)) = .ok (a, b)) : x = a ∧ y = b := by
  injection h with h1
  exact ⟨congrArg Prod.fst h1, congrArg Prod.snd h1⟩

theorem eval_key_columns_ok_length {rows : List Row} {cols : List (List K)}
    (h : eval_key_columns keyExprs rows = .ok cols) : cols.length = keyExprs.length := by
  induction keyExprs generalizing cols with
  | nil => simp [eval_key_columns] at h; simp [← h]
  | cons e es ih =>
    simp only [eval_key_columns] at h
    cases h1 : eval_column e rows with
    | error err => rw [h1] at h; exact absurd h (by simp)
    | ok col =>
      rw [h1] at h
      cases h2 : eval_key_columns es rows with
      | error err => rw [h2] at h; exact absurd h (by simp)
      | ok cols2 =>
        rw [h2] at h
        rw [← ok_inj h]
        simp [ih h2]

theorem close_group_eq_flush {st : AggSt K A AggState} {aggs1 : List AggState}
    {ab1 : List (List A)}
    (hout : output_agg_states aggOutput st.agg_states st.agg_builders = .ok (aggs1, ab1))
    (hz : st.left_capacity - 1 = 0) :
    close_group L keyExprs aggOutput st =
      .ok ([⟨output_sorted_groupers st.sorted_groupers st.group_builders, ab1, L⟩],
        { st with agg_states := aggs1, group_builders := keyExprs.map (fun _ => []),
                  agg_builders := aggs1.map (fun _ => []), left_capacity := L }) := by
  simp [close_group, hout, hz, create_builders]

theorem close_group_eq_cont {st : AggSt K A AggState} {aggs1 : List AggState}
    {ab1 : List (List A)}
    (hout : output_agg_states aggOutput st.agg_states st.agg_builders = .ok (aggs1, ab1))
    (hz : ¬ st.left_capacity - 1 = 0) :
    close_group L keyExprs aggOutput st =
      .ok ([],
           { st with
               agg_states := aggs1,
               group_builders := output_sorted_groupers st.sorted_groupers st.group_builders,
               agg_builders := ab1,
               left_capacity := st.left_capacity - 1 }) := by
  simp [close_group, hout, hz]

theorem close_group_eq_error {st : AggSt K A AggState} {e : E}
    (hout : output_agg_states aggOutput st.agg_states st.agg_builders = .error e) :
    close_group L keyExprs aggOutput st = .error e := by
  simp [close_group, hout]

theorem close_group_spec {st st' : AggSt K A AggState} {bs : List (OutBatch K A)}
    (hke : keyExprs.length = nk) (hinv : StInv L nk na st)
    (h : close_group L keyExprs aggOutput st = .ok (bs, st')) :
    (∀ b ∈ bs, BatchFull L nk na b) ∧ StInv L nk na st' ∧
    st'.no_input_data = st.no_input_data ∧ st'.sorted_groupers = st.sorted_groupers := by
  obtain ⟨hg, ha, hgb, hab, hc1, hcL, hgbl, habl⟩ := hinv
  cases hout : output_agg_states aggOutput st.agg_states st.agg_builders with
  | error e => rw [close_group_eq_error hout] at h; exact absurd h (by simp)
  | ok p =>
    obtain ⟨aggs1, ab1⟩ := p
    obtain ⟨hal, habl1, habc1⟩ := output_agg_states_len hout (by omega) habl
    obtain ⟨hgbl1, hgbc1⟩ := output_sorted_groupers_len
      (show st.sorted_groupers.length = st.group_builders.length by omega) hgbl
    by_cases hz : st.left_capacity - 1 = 0
    · rw [close_group_eq_flush hout hz] at h
      obtain ⟨rfl, rfl⟩ := ok_pair_inj h
      have hfull : L - st.left_capacity + 1 = L := by omega
      constructor
      · intro b hb
        simp only [List.mem_singleton] at hb
        subst hb
        refine ⟨rfl, ?_, ?_, ?_, ?_⟩
        · dsimp only
          rw [hgbl1, hgb]
        · dsimp only
          rw [habl1, hab]
        · intro c hc
          dsimp only at hc
          rw [hgbc1 c hc, hfull]
        · intro c hc
          dsimp only at hc
          rw [habc1 c hc, hfull]
      · refine ⟨⟨hg, ?_, ?_, ?_, ?_, ?_, ?_, ?_⟩, rfl, rfl⟩
        · dsimp only
          rw [hal, ha]
        · dsimp only
          simp [hke]
        · dsimp only
          simp only [List.length_map]
          rw [hal, ha]
        · dsimp only
          omega
        · dsimp only
          omega
        · intro c hc
          dsimp only at hc
          simp only [List.mem_map] at hc
          obtain ⟨x, _, hx⟩ := hc
          simp [← hx]
        · intro c hc
          dsimp only at hc
          simp only [List.mem_map] at hc
          obtain ⟨x, _, hx⟩ := hc
          simp [← hx]
    · rw [close_group_eq_cont hout hz] at h
      obtain ⟨rfl, rfl⟩ := ok_pair_inj h
      refine ⟨by simp, ⟨hg, ?_, ?_, ?_, ?_, ?_, ?_, ?_⟩, rfl, rfl⟩
      · dsimp only
        rw [hal, ha]
      · dsimp only
        rw [hgbl1, hgb]
      · dsimp only
        rw [habl1, hab]
      · dsimp only
        omega
      · dsimp only
        omega
      · intro c hc
        dsimp only at hc ⊢
        rw [hgbc1 c hc]
        omega
      · intro c hc
        dsimp only at hc ⊢
        rw [habc1 c hc]
        omega

theorem update_sorted_groupers_length {gs : List (Option K)} {cols : List (List K)}
    {a b : Nat} :
    (update_sorted_groupers gs cols a b).length = min gs.length cols.length := by
  simp [update_sorted_groupers]

theorem boundary_step_spec {st st' : AggSt K A AggState} {bs : List (OutBatch K A)}
    {rows : List Row} {cols : List (List K)} {s i : Nat}
    (hke : keyExprs.length = nk) (hcols : cols.length = nk) (hinv : StInv L nk na st)
    (h : boundary_step L keyExprs aggUpdate aggOutput rows cols s i st = .ok (bs, st')) :
    (∀ b ∈ bs, BatchFull L nk na b) ∧ StInv L nk na st' ∧
    st'.no_input_data = st.no_input_data := by
  simp only [boundary_step] at h
  by_cases hlt : s < i
  · rw [if_pos hlt] at h
    cases hu : update_agg_states aggUpdate st.agg_states rows s i with
    | error e => rw [hu] at h; exact absurd h (by simp)
    | ok aggs1 =>
      rw [hu] at h
      obtain ⟨hg, ha, hgb, hab, hc1, hcL, hgbl, habl⟩ := hinv
      have hinvm : StInv L nk na
          { st with sorted_groupers := update_sorted_groupers st.sorted_groupers cols s i,
                    agg_states := aggs1 } := by
        refine ⟨?_, ?_, hgb, hab, hc1, hcL, hgbl, habl⟩
        · dsimp only
          rw [update_sorted_groupers_length, hg, hcols, Nat.min_self]
        · dsimp only
          rw [update_agg_states_ok_length hu, ha]
      obtain ⟨hb, hi, hf, _⟩ := close_group_spec hke hinvm h
      exact ⟨hb, hi, hf⟩
  · rw [if_neg hlt] at h
    obtain ⟨hb, hi, hf, _⟩ := close_group_spec hke hinv h
    exact ⟨hb, hi, hf⟩

theorem run_boundaries_spec {st : AggSt K A AggState} {groups : List Nat} {s : Nat}
    {rows : List Row} {cols : List (List K)}
    (hke : keyExprs.length = nk) (hcols : cols.length = nk) (hinv : StInv L nk na st) :
    (∀ b ∈ (run_boundaries L keyExprs aggUpdate aggOutput rows cols groups s st).1,
       BatchFull L nk na b) ∧
    (∀ st' s', (run_boundaries L keyExprs aggUpdate aggOutput rows cols groups s st).2 =
        .ok (st', s') → StInv L nk na st' ∧ st'.no_input_data = st.no_input_data) := by
  induction groups generalizing s st with
  | nil =>
    refine ⟨by simp [run_boundaries], ?_⟩
    intro st' s' h
    simp only [run_boundaries] at h
    obtain ⟨rfl, rfl⟩ := ok_pair_inj h
    exact ⟨hinv, rfl⟩
  | cons i is ih =>
    simp only [run_boundaries]
    cases hstep : boundary_step L keyExprs aggUpdate aggOutput rows cols s i st with
    | error e => exact ⟨by simp, by simp⟩
    | ok p =>
      obtain ⟨bs1, st1⟩ := p
      obtain ⟨hb1, hinv1, hf1⟩ := boundary_step_spec hke hcols hinv hstep
      obtain ⟨ihb, ihr⟩ := ih (s := i) hinv1
      constructor
      · intro b hb
        simp only [List.mem_append] at hb
        rcases hb with h1 | h2
        · exact hb1 b h1
        · exact ihb b h2
      · intro st' s' h
        obtain ⟨hi, hf⟩ := ihr st' s' h
        exact ⟨hi, by rw [hf, hf1]⟩

end InvariantSpec

section StreamSpec

variable {K Row A AggState E : Type} [DecidableEq K]
variable {L nk na : Nat} {keyExprs : List (Row → Except E K)}
variable {aggUpdate : AggState → List Row → Nat → Nat → Except E AggState}
variable {aggOutput : AggState → Except E (A × AggState)}

theorem chunk_tail_spec {rows : List Row} {cols : List (List K)} {groups : List Nat}
    {st : AggSt K A AggState}
    (hke : keyExprs.length = nk) (hcols : cols.length = nk) (hinv : StInv L nk na st) :
    (∀ b ∈ (chunk_tail L keyExprs aggUpdate aggOutput rows cols groups st).1,
       BatchFull L nk na b) ∧
    (∀ st', (chunk_tail L keyExprs aggUpdate aggOutput rows cols groups st).2 = .ok st' →
       StInv L nk na st' ∧ st'.no_input_data = st.no_input_data) := by
  have hrbs : (∀ b ∈ (run_boundaries L keyExprs aggUpdate aggOutput rows cols
        groups 0 st).1, BatchFull L nk na b) ∧
      (∀ st' s', (run_boundaries L keyExprs aggUpdate aggOutput rows cols
          groups 0 st).2 = .ok (st', s') →
        StInv L nk na st' ∧ st'.no_input_data = st.no_input_data) :=
    run_boundaries_spec hke hcols hinv
  obtain ⟨hfull0, hok0⟩ := hrbs
  rcases hrb : run_boundaries L keyExprs aggUpdate aggOutput rows cols groups 0 st
    with ⟨bs0, r0⟩
  rw [hrb] at hfull0 hok0
  simp only [chunk_tail, hrb]
  cases r0 with
  | error e => exact ⟨hfull0, by simp⟩
  | ok p =>
    obtain ⟨st1, start⟩ := p
    obtain ⟨hinv1, hf1⟩ := hok0 st1 start rfl
    by_cases hlt : start < rows.length
    · simp only [if_pos hlt]
      cases hu : update_agg_states aggUpdate st1.agg_states rows start rows.length with
      | error e => exact ⟨hfull0, by simp⟩
      | ok aggs1 =>
        refine ⟨hfull0, ?_⟩
        intro st' h
        obtain rfl := ok_inj h
        obtain ⟨hg, ha, hgb, hab, hc1, hcL, hgbl, habl⟩ := hinv1
        refine ⟨⟨?_, ?_, hgb, hab, hc1, hcL, hgbl, habl⟩, hf1⟩
        · dsimp only
          rw [update_sorted_groupers_length, hg, hcols, Nat.min_self]
        · dsimp only
          rw [update_agg_states_ok_length hu, ha]
    · simp only [if_neg hlt]
      refine ⟨hfull0, ?_⟩
      intro st' h
      obtain rfl := ok_inj h
      exact ⟨hinv1, hf1⟩

theorem process_rows_spec {rows : List Row} {st : AggSt K A AggState}
    (hke : keyExprs.length = nk) (hinv : StInv L nk na st) :
    (∀ b ∈ (process_rows L keyExprs aggUpdate aggOutput rows st).1, BatchFull L nk na b) ∧
    (∀ st', (process_rows L keyExprs aggUpdate aggOutput rows st).2 = .ok st' →
       StInv L nk na st' ∧ st'.no_input_data = st.no_input_data) := by
  simp only [process_rows]
  cases hev : eval_key_columns keyExprs rows with
  | error e => exact ⟨by simp, by simp⟩
  | ok cols =>
    exact chunk_tail_spec hke (by rw [eval_key_columns_ok_length hev, hke]) hinv

theorem process_chunk_spec {chunk : List (Row × Bool)} {st : AggSt K A AggState}
    (hke : keyExprs.length = nk) (hinv : StInv L nk na st) :
    (∀ b ∈ (process_chunk L keyExprs aggUpdate aggOutput st chunk).1, BatchFull L nk na b) ∧
    (∀ st', (process_chunk L keyExprs aggUpdate aggOutput st chunk).2 = .ok st' →
       StInv L nk na st' ∧
       st'.no_input_data = (st.no_input_data && (compact chunk).isEmpty)) := by
  simp only [process_chunk]
  have hinv2 : StInv L nk na
      { st with no_input_data := st.no_input_data && (compact chunk).isEmpty } := hinv
  exact process_rows_spec hke hinv2

theorem process_chunks_spec {chunks : List (List (Row × Bool))} {st : AggSt K A AggState}
    (hke : keyExprs.length = nk) (hinv : StInv L nk na st) :
    (∀ b ∈ (process_chunks L keyExprs aggUpdate aggOutput st chunks).1, BatchFull L nk na b) ∧
    (∀ st', (process_chunks L keyExprs aggUpdate aggOutput st chunks).2 = .ok st' →
       StInv L nk na st' ∧
       st'.no_input_data =
         (st.no_input_data && chunks.all (fun c => (compact c).isEmpty))) := by
  induction chunks generalizing st with
  | nil =>
    refine ⟨by simp [process_chunks], ?_⟩
    intro st' h
    simp only [process_chunks] at h
    obtain rfl := ok_inj h
    simp [hinv]
  | cons c cs ih =>
    simp only [process_chunks]
    have hpcs : (∀ b ∈ (process_chunk L keyExprs aggUpdate aggOutput st c).1,
        BatchFull L nk na b) ∧
      (∀ st', (process_chunk L keyExprs aggUpdate aggOutput st c).2 = .ok st' →
        StInv L nk na st' ∧
        st'.no_input_data = (st.no_input_data && (compact c).isEmpty)) :=
      process_chunk_spec hke hinv
    obtain ⟨hb1, hr1⟩ := hpcs
    rcases hpc : process_chunk L keyExprs aggUpdate aggOutput st c with ⟨bs1, r1⟩
    rw [hpc] at hb1 hr1
    cases r1 with
    | error e => exact ⟨hb1, by simp⟩
    | ok st1 =>
      obtain ⟨hinv1, hf1⟩ := hr1 st1 rfl
      obtain ⟨ihb, ihr⟩ := ih hinv1
      constructor
      · intro b hb
        simp only [List.mem_append] at hb
        rcases hb with h1 | h2
        · exact hb1 b h1
        · exact ihb b h2
      · intro st' h
        obtain ⟨hi, hf⟩ := ihr st' h
        refine ⟨hi, ?_⟩
        rw [hf, hf1]
        simp [Bool.and_assoc]

theorem init_state_inv (hL : 1 ≤ L) (initAggs : List AggState) :
    StInv L keyExprs.length initAggs.length
      (init_state (A := A) L keyExprs initAggs) := by
  refine ⟨by simp [init_state], by simp [init_state], ?_, ?_, by simpa [init_state], by simp [init_state], ?_, ?_⟩
  · simp [init_state, create_builders]
  · simp [init_state, create_builders]
  · intro c hc
    simp only [init_state, create_builders, List.mem_map] at hc
    obtain ⟨x, _, hx⟩ := hc
    simp [← hx, init_state]
  · intro c hc
    simp only [init_state, create_builders, List.mem_map] at hc
    obtain ⟨x, _, hx⟩ := hc
    simp [← hx, init_state]

theorem process_chunks_all_empty {chunks : List (List (Row × Bool))} {st : AggSt K A AggState}
    (h : ∀ c ∈ chunks, compact c = []) :
    process_chunks L keyExprs aggUpdate aggOutput st chunks = ([], .ok st) := by
  induction chunks generalizing st with
  | nil => rfl
  | cons c cs ih =>
    simp [process_chunks,
      process_chunk_empty_noop L keyExprs aggUpdate aggOutput st c (h c (by simp)),
      ih (fun x hx => h x (by simp [hx]))]

end StreamSpec

section PairInj

theorem pair_inj {α β : Type} {a c : α} {b d : β} (h : (a, b) = (c, d)) : a = c ∧ b = d :=
  ⟨congrArg Prod.fst h, congrArg Prod.snd h⟩

end PairInj

/-!
## Claim theorems about the generic driver
-/

section GenericClaims

variable {K Row A AggState E : Type} [DecidableEq K]
variable {L : Nat} {keyExprs : List (Row → Except E K)}
variable {aggUpdate : AggState → List Row → Nat → Nat → Except E AggState}
variable {aggOutput : AggState → Except E (A × AggState)}

/-- C10: processing an input chunk that compacts to zero visible rows is a
complete no-op apart from key-expression evaluation: no grouper update, no
accumulator update, no output row appended, no batch yielded, and the
remaining capacity and `no_input_data` flag (and all other state) unchanged. -/
theorem sort_agg_empty_chunk_noop (L : Nat) (keyExprs : List (Row → Except E K))
    (aggUpdate : AggState → List Row → Nat → Nat → Except E AggState)
    (aggOutput : AggState → Except E (A × AggState)) (st : AggSt K A AggState)
    (chunk : List (Row × Bool)) (h : compact chunk = []) :
    process_chunk L keyExprs aggUpdate aggOutput st chunk = ([], .ok st) :=
  process_chunk_empty_noop L keyExprs aggUpdate aggOutput st chunk h

/-- C3: when the group key is non-empty and zero visible input rows are
observed across the entire stream, `execute()` yields zero output batches and
no terminal error: the stream simply ends. -/
theorem sort_agg_grouped_empty_input_no_output (L : Nat)
    (keyExprs : List (Row → Except E K))
    (aggUpdate : AggState → List Row → Nat → Nat → Except E AggState)
    (aggOutput : AggState → Except E (A × AggState)) (initAggs : List AggState)
    (chunks : List (List (Row × Bool)))
    (hkey : keyExprs ≠ []) (hempty : ∀ c ∈ chunks, compact c = []) :
    do_execute L keyExprs aggUpdate aggOutput initAggs chunks = ([], none) := by
  have hpc : process_chunks L keyExprs aggUpdate aggOutput
      (init_state L keyExprs initAggs) chunks =
      ([], .ok (init_state L keyExprs initAggs)) :=
    process_chunks_all_empty hempty
  have hne : keyExprs.isEmpty = false := by
    cases keyExprs with
    | nil => exact absurd rfl hkey
    | cons e es => rfl
  simp only [do_execute]
  rw [hpc]
  simp [init_state, hne]

/-- C2: when the group key is empty (plain global aggregation) and the input
stream contains zero visible rows, `execute()` yields exactly one output batch
of declared cardinality 1, containing exactly one row holding each
accumulator's default output (every aggregate column has length 1). -/
theorem sort_agg_global_empty_input_default_row (L : Nat)
    (aggUpdate : AggState → List Row → Nat → Nat → Except E AggState)
    (aggOutput : AggState → Except E (A × AggState)) (initAggs : List AggState)
    (chunks : List (List (Row × Bool))) (aggsF : List AggState) (abF : List (List A))
    (hempty : ∀ c ∈ chunks, compact c = [])
    (hout : output_agg_states aggOutput initAggs (initAggs.map (fun _ => [])) =
      .ok (aggsF, abF)) :
    do_execute L ([] : List (Row → Except E K)) aggUpdate aggOutput initAggs chunks =
      ([⟨[], abF, 1⟩], none) ∧ ∀ c ∈ abF, c.length = 1 := by
  have hpc : process_chunks L ([] : List (Row → Except E K)) aggUpdate aggOutput
      (init_state L ([] : List (Row → Except E K)) initAggs) chunks =
      ([], .ok (init_state L ([] : List (Row → Except E K)) initAggs)) :=
    process_chunks_all_empty hempty
  obtain ⟨_, _, hlen⟩ := output_agg_states_len (m := 0) hout (by simp)
    (by intro c hc
        simp only [List.mem_map] at hc
        obtain ⟨x, _, hx⟩ := hc
        simp [← hx])
  constructor
  · have hout2 : output_agg_states aggOutput initAggs
        (List.replicate initAggs.length []) = .ok (aggsF, abF) := by
      simpa using hout
    simp only [do_execute]
    rw [hpc]
    simp [init_state, create_builders, hout2, output_sorted_groupers]
  · intro c hc
    exact hlen c hc

/-- C9: starting from the initial state, whenever the chunk loop finishes
without error the remaining-capacity counter satisfies
`1 ≤ left_capacity ≤ output_size_limit`, so the assertion
`assert!(left_capacity > 0)` after input exhaustion never fails and the
subtraction `output_size_limit - left_capacity` in the final-flush cardinality
never underflows. -/
theorem sort_agg_left_capacity_invariant (L : Nat) (keyExprs : List (Row → Except E K))
    (aggUpdate : AggState → List Row → Nat → Nat → Except E AggState)
    (aggOutput : AggState → Except E (A × AggState)) (initAggs : List AggState)
    (chunks : List (List (Row × Bool))) (bs : List (OutBatch K A)) (st : AggSt K A AggState)
    (hL : 1 ≤ L)
    (h : process_chunks L keyExprs aggUpdate aggOutput (init_state L keyExprs initAggs)
      chunks = (bs, .ok st)) :
    1 ≤ st.left_capacity ∧ st.left_capacity ≤ L := by
  have hpcspec : (∀ b ∈ (process_chunks L keyExprs aggUpdate aggOutput
        (init_state L keyExprs initAggs) chunks).1,
        BatchFull L keyExprs.length initAggs.length b) ∧
      (∀ st', (process_chunks L keyExprs aggUpdate aggOutput
          (init_state L keyExprs initAggs) chunks).2 = .ok st' →
        StInv L keyExprs.length initAggs.length st' ∧
        st'.no_input_data = ((init_state L keyExprs initAggs).no_input_data &&
          chunks.all (fun c => (compact c).isEmpty))) :=
    process_chunks_spec rfl (init_state_inv hL initAggs)
  obtain ⟨_, hr⟩ := hpcspec
  rw [h] at hr
  obtain ⟨hinv, _⟩ := hr st rfl
  exact ⟨hinv.2.2.2.2.1, hinv.2.2.2.2.2.1⟩

/-- C5: on the final flush at stream exhaustion (whenever a final batch is
emitted at all), the declared cardinality of the last output batch equals
`output_size_limit - left_capacity + 1`, and this equals the number of group
rows actually emitted into that batch (every column of the final batch has
exactly that many values). -/
theorem sort_agg_final_flush_cardinality (L : Nat) (keyExprs : List (Row → Except E K))
    (aggUpdate : AggState → List Row → Nat → Nat → Except E AggState)
    (aggOutput : AggState → Except E (A × AggState)) (initAggs : List AggState)
    (chunks : List (List (Row × Bool))) (bs0 : List (OutBatch K A)) (st : AggSt K A AggState)
    (aggsF : List AggState) (abF : List (List A)) (hL : 1 ≤ L)
    (h : process_chunks L keyExprs aggUpdate aggOutput (init_state L keyExprs initAggs)
      chunks = (bs0, .ok st))
    (hfl : (st.no_input_data && !keyExprs.isEmpty) = false)
    (hout : output_agg_states aggOutput st.agg_states st.agg_builders = .ok (aggsF, abF)) :
    do_execute L keyExprs aggUpdate aggOutput initAggs chunks =
      (bs0 ++ [⟨output_sorted_groupers st.sorted_groupers st.group_builders, abF,
         L - st.left_capacity + 1⟩], none) ∧
    (∀ c ∈ output_sorted_groupers st.sorted_groupers st.group_builders,
       c.length = L - st.left_capacity + 1) ∧
    (∀ c ∈ abF, c.length = L - st.left_capacity + 1) := by
  have hpcspec : (∀ b ∈ (process_chunks L keyExprs aggUpdate aggOutput
        (init_state L keyExprs initAggs) chunks).1,
        BatchFull L keyExprs.length initAggs.length b) ∧
      (∀ st', (process_chunks L keyExprs aggUpdate aggOutput
          (init_state L keyExprs initAggs) chunks).2 = .ok st' →
        StInv L keyExprs.length initAggs.length st' ∧
        st'.no_input_data = ((init_state L keyExprs initAggs).no_input_data &&
          chunks.all (fun c => (compact c).isEmpty))) :=
    process_chunks_spec rfl (init_state_inv hL initAggs)
  obtain ⟨_, hr⟩ := hpcspec
  rw [h] at hr
  obtain ⟨hinv, _⟩ := hr st rfl
  obtain ⟨hg, ha, hgb, hab, hc1, hcL, hgbl, habl⟩ := hinv
  obtain ⟨_, _, habc⟩ := output_agg_states_len hout (by omega) habl
  obtain ⟨_, hgbc⟩ := output_sorted_groupers_len
    (show st.sorted_groupers.length = st.group_builders.length by omega) hgbl
  exact ⟨by simp [do_execute, h, hfl, hout], hgbc, habc⟩

/-- C7: if any operation fails during `execute()`, the output stream
terminates with that error as its final element; the partially built output
batch in progress is never yielded (every batch yielded before the error is a
full batch of declared cardinality `output_size_limit`), and no further
batches are produced after the error. -/
theorem sort_agg_error_terminal_no_partial_batch (L : Nat)
    (keyExprs : List (Row → Except E K))
    (aggUpdate : AggState → List Row → Nat → Nat → Except E AggState)
    (aggOutput : AggState → Except E (A × AggState)) (initAggs : List AggState)
    (chunks : List (List (Row × Bool))) (bs : List (OutBatch K A)) (e : E) (hL : 1 ≤ L)
    (h : do_execute L keyExprs aggUpdate aggOutput initAggs chunks = (bs, some e)) :
    ∀ b ∈ bs, b.card = L := by
  have hpcspec : (∀ b ∈ (process_chunks L keyExprs aggUpdate aggOutput
        (init_state L keyExprs initAggs) chunks).1,
        BatchFull L keyExprs.length initAggs.length b) ∧
      (∀ st', (process_chunks L keyExprs aggUpdate aggOutput
          (init_state L keyExprs initAggs) chunks).2 = .ok st' →
        StInv L keyExprs.length initAggs.length st' ∧
        st'.no_input_data = ((init_state L keyExprs initAggs).no_input_data &&
          chunks.all (fun c => (compact c).isEmpty))) :=
    process_chunks_spec rfl (init_state_inv hL initAggs)
  obtain ⟨hfull, hok⟩ := hpcspec
  rcases hpc : process_chunks L keyExprs aggUpdate aggOutput
    (init_state L keyExprs initAggs) chunks with ⟨bs0, r0⟩
  rw [hpc] at hfull hok
  cases r0 with
  | error e0 =>
    simp only [do_execute, hpc] at h
    obtain ⟨rfl, _⟩ := pair_inj h
    intro b hb
    exact (hfull b hb).1
  | ok st =>
    simp only [do_execute, hpc] at h
    by_cases hfl : (st.no_input_data && !keyExprs.isEmpty) = true
    · rw [if_pos hfl] at h
      obtain ⟨_, hnone⟩ := pair_inj h
      exact absurd hnone (by simp)
    · rw [if_neg hfl] at h
      cases hout : output_agg_states aggOutput st.agg_states st.agg_builders with
      | error e1 =>
        rw [hout] at h
        obtain ⟨rfl, _⟩ := pair_inj h
        intro b hb
        exact (hfull b hb).1
      | ok p =>
        rw [hout] at h
        obtain ⟨_, hnone⟩ := pair_inj h
        exact absurd hnone (by simp)

end GenericClaims

section MoreGenericClaims

variable {K Row A AggState E : Type} [DecidableEq K]

/-- C4: for every `output_size_limit = L ≥ 1` and every input on which the
stream finishes without error, every yielded batch except possibly the last
has exactly `L` rows, the last batch has between 1 and `L` rows, and the
stream yields zero batches exactly when the group key is non-empty and no
visible input row was observed. -/
theorem sort_agg_batch_size_bounds (L : Nat) (keyExprs : List (Row → Except E K))
    (aggUpdate : AggState → List Row → Nat → Nat → Except E AggState)
    (aggOutput : AggState → Except E (A × AggState)) (initAggs : List AggState)
    (chunks : List (List (Row × Bool))) (bs : List (OutBatch K A)) (hL : 1 ≤ L)
    (h : do_execute L keyExprs aggUpdate aggOutput initAggs chunks = (bs, none)) :
    (∀ b ∈ bs.dropLast, b.card = L) ∧
    (∀ b, bs.getLast? = some b → 1 ≤ b.card ∧ b.card ≤ L) ∧
    (bs = [] ↔ keyExprs ≠ [] ∧ ∀ c ∈ chunks, compact c = []) := by
  have hpcspec : (∀ b ∈ (process_chunks L keyExprs aggUpdate aggOutput
        (init_state L keyExprs initAggs) chunks).1,
        BatchFull L keyExprs.length initAggs.length b) ∧
      (∀ st', (process_chunks L keyExprs aggUpdate aggOutput
          (init_state L keyExprs initAggs) chunks).2 = .ok st' →
        StInv L keyExprs.length initAggs.length st' ∧
        st'.no_input_data = ((init_state L keyExprs initAggs).no_input_data &&
          chunks.all (fun c => (compact c).isEmpty))) :=
    process_chunks_spec rfl (init_state_inv hL initAggs)
  obtain ⟨hfull, hok⟩ := hpcspec
  rcases hpc : process_chunks L keyExprs aggUpdate aggOutput
    (init_state L keyExprs initAggs) chunks with ⟨bs0, r0⟩
  rw [hpc] at hfull hok
  cases r0 with
  | error e0 =>
    simp only [do_execute, hpc] at h
    obtain ⟨_, hnone⟩ := pair_inj h
    exact absurd hnone (by simp)
  | ok st =>
    obtain ⟨hinv, hflag⟩ := hok st rfl
    simp only [init_state, Bool.true_and] at hflag
    simp only [do_execute, hpc] at h
    by_cases hfl : (st.no_input_data && !keyExprs.isEmpty) = true
    · rw [if_pos hfl] at h
      obtain ⟨rfl, _⟩ := pair_inj h
      simp only [Bool.and_eq_true, Bool.not_eq_eq_eq_not, Bool.not_true] at hfl
      obtain ⟨hni, hkne⟩ := hfl
      have hkey : keyExprs ≠ [] := by
        cases keyExprs with
        | nil => simp at hkne
        | cons e es => simp
      have hallempty : ∀ c ∈ chunks, compact c = [] := by
        rw [hni] at hflag
        intro c hc
        have := (List.all_eq_true.mp hflag.symm) c hc
        simpa [List.isEmpty_iff] using this
      have hpc2 : process_chunks L keyExprs aggUpdate aggOutput
          (init_state L keyExprs initAggs) chunks =
          ([], .ok (init_state L keyExprs initAggs)) :=
        process_chunks_all_empty hallempty
      rw [hpc] at hpc2
      obtain ⟨rfl, _⟩ := pair_inj hpc2
      exact ⟨by simp, by simp, by simp [hkey]; exact hallempty⟩
    · rw [if_neg hfl] at h
      cases hout : output_agg_states aggOutput st.agg_states st.agg_builders with
      | error e1 =>
        rw [hout] at h
        obtain ⟨_, hnone⟩ := pair_inj h
        exact absurd hnone (by simp)
      | ok p =>
        obtain ⟨aggsF, abF⟩ := p
        rw [hout] at h
        obtain ⟨hbs, _⟩ := pair_inj h
        obtain ⟨hg, ha, hgb, hab, hc1, hcL, hgbl, habl⟩ := hinv
        subst hbs
        refine ⟨?_, ?_, ?_⟩
        · intro b hb
          rw [List.dropLast_concat] at hb
          exact (hfull b hb).1
        · intro b hb
          rw [List.getLast?_concat] at hb
          obtain rfl : (⟨output_sorted_groupers st.sorted_groupers st.group_builders, abF,
            L - st.left_capacity + 1⟩ : OutBatch K A) = b := by
            injection hb
          constructor
          · simp
          · simp only []
            omega
        · constructor
          · intro hcontra
            exact absurd hcontra (by simp)
          · rintro ⟨hkey, hallempty⟩
            exfalso
            apply hfl
            have hall : chunks.all (fun c => (compact c).isEmpty) = true := by
              rw [List.all_eq_true]
              intro c hc
              simp [hallempty c hc]
            have hne : keyExprs.isEmpty = false := by
              cases keyExprs with
              | nil => exact absurd rfl hkey
              | cons e es => rfl
            rw [hflag, hall, hne]
            rfl

/-- C6: for every boundary index `i`, the driver emits the grouper and
accumulator outputs exactly once, unconditionally: when the pending sub-range
is empty (`¬ start_row_idx < i`) the grouper/accumulator update step is
skipped but the close still runs, and when `start_row_idx < i` the updates
over `[start_row_idx, i)` run first; in both cases the close appends exactly
the grouper outputs (and one aggregate value per column) as one new row,
either into the builders or into the flushed full batch. -/
theorem sort_agg_boundary_unconditional_emit (L : Nat)
    (keyExprs : List (Row → Except E K))
    (aggUpdate : AggState → List Row → Nat → Nat → Except E AggState)
    (aggOutput : AggState → Except E (A × AggState))
    (rows : List Row) (cols : List (List K)) (s i : Nat) (st : AggSt K A AggState) :
    (¬ s < i → boundary_step L keyExprs aggUpdate aggOutput rows cols s i st =
      close_group L keyExprs aggOutput st) ∧
    (s < i → boundary_step L keyExprs aggUpdate aggOutput rows cols s i st =
      match update_agg_states aggUpdate st.agg_states rows s i with
      | .error e => .error e
      | .ok aggs1 => close_group L keyExprs aggOutput
          { st with sorted_groupers := update_sorted_groupers st.sorted_groupers cols s i,
                    agg_states := aggs1 }) ∧
    (∀ bsF st', close_group L keyExprs aggOutput st = .ok (bsF, st') →
      ∃ aggs1 ab1,
        output_agg_states aggOutput st.agg_states st.agg_builders = .ok (aggs1, ab1) ∧
        ((bsF = [] ∧
          st'.group_builders = output_sorted_groupers st.sorted_groupers st.group_builders ∧
          st'.agg_builders = ab1) ∨
         bsF = [⟨output_sorted_groupers st.sorted_groupers st.group_builders, ab1, L⟩])) := by
  refine ⟨?_, ?_, ?_⟩
  · intro hni
    simp [boundary_step, hni]
  · intro hlt
    simp [boundary_step, hlt]
  · intro bsF st' h
    cases hout : output_agg_states aggOutput st.agg_states st.agg_builders with
    | error e => rw [close_group_eq_error hout] at h; exact absurd h (by simp)
    | ok p =>
      obtain ⟨aggs1, ab1⟩ := p
      refine ⟨aggs1, ab1, rfl, ?_⟩
      by_cases hz : st.left_capacity - 1 = 0
      · rw [close_group_eq_flush hout hz] at h
        obtain ⟨rfl, rfl⟩ := ok_pair_inj h
        exact Or.inr rfl
      · rw [close_group_eq_cont hout hz] at h
        obtain ⟨rfl, rfl⟩ := ok_pair_inj h
        exact Or.inl ⟨rfl, rfl, rfl⟩

end MoreGenericClaims


theorem sort_agg_empty_chunk_noop_witness :
    compact ([([5,5,5], false)] : List (List Int × Bool)) = [] ∧
    process_chunk 3 wKe wU wO (init_state 3 wKe [0]) [([5,5,5], false)] =
      ([], .ok (init_state 3 wKe [0])) :=
  ⟨rfl, sort_agg_empty_chunk_noop 3 wKe wU wO (init_state 3 wKe [0]) [([5,5,5], false)] rfl⟩

theorem sort_agg_grouped_empty_input_no_output_witness :
    wKe ≠ [] ∧
    (∀ c ∈ ([[([1,2,3], false)], []] : List (List (List Int × Bool))), compact c = []) ∧
    do_execute 4 wKe wU wO [0] [[([1,2,3], false)], []] = ([], none) :=
  ⟨by simp [wKe, wFns, pure_exprs], by decide,
   sort_agg_grouped_empty_input_no_output 4 wKe wU wO [0] [[([1,2,3], false)], []]
     (by simp [wKe, wFns, pure_exprs]) (by decide)⟩

theorem sort_agg_global_empty_input_default_row_witness :
    (∀ c ∈ ([[], [([9], false)]] : List (List (List Int × Bool))), compact c = []) ∧
    output_agg_states wO [0] ([0].map (fun _ => [])) = .ok ([0], [[0]]) ∧
    (do_execute 5 ([] : List (List Int → Except Unit Int)) wU wO [0] [[], [([9], false)]] =
       ([⟨[], [[0]], 1⟩], none) ∧ ∀ c ∈ [[(0 : Int)]], c.length = 1) :=
  ⟨by decide, rfl,
   sort_agg_global_empty_input_default_row (K := Int) 5 wU wO [0] [[], [([9], false)]]
     [0] [[0]] (by decide) rfl⟩

theorem sort_agg_left_capacity_invariant_witness :
    (1 : Nat) ≤ 4 ∧
    process_chunks 4 wKe wU wO (init_state 4 wKe [0]) [wChunk1, wChunk2, wChunk3] =
      (wBs0, .ok wSt) ∧
    (1 ≤ wSt.left_capacity ∧ wSt.left_capacity ≤ 4) :=
  ⟨by omega, rfl,
   sort_agg_left_capacity_invariant 4 wKe wU wO [0] [wChunk1, wChunk2, wChunk3] wBs0 wSt
     (by omega) rfl⟩

theorem sort_agg_final_flush_cardinality_witness :
    (1 : Nat) ≤ 4 ∧
    process_chunks 4 wKe wU wO (init_state 4 wKe [0]) [wChunk1, wChunk2, wChunk3] =
      (wBs0, .ok wSt) ∧
    (wSt.no_input_data && !wKe.isEmpty) = false ∧
    output_agg_states wO wSt.agg_states wSt.agg_builders = .ok ([0], [[5, 14]]) ∧
    (do_execute 4 wKe wU wO [0] [wChunk1, wChunk2, wChunk3] =
       (wBs0 ++ [⟨output_sorted_groupers wSt.sorted_groupers wSt.group_builders, [[5, 14]],
          4 - wSt.left_capacity + 1⟩], none) ∧
     (∀ c ∈ output_sorted_groupers wSt.sorted_groupers wSt.group_builders,
        c.length = 4 - wSt.left_capacity + 1) ∧
     (∀ c ∈ [[(5 : Int), 14]], c.length = 4 - wSt.left_capacity + 1)) :=
  ⟨by omega, rfl, by decide, rfl,
   sort_agg_final_flush_cardinality 4 wKe wU wO [0] [wChunk1, wChunk2, wChunk3] wBs0 wSt
     [0] [[5, 14]] (by omega) rfl (by decide) rfl⟩

theorem sort_agg_error_terminal_no_partial_batch_witness :
    (1 : Nat) ≤ 2 ∧
    do_execute 2 wKe wErrU wO [0] [[([1,1,1], true)]] =
      (([] : List (OutBatch Int Int)), some ()) ∧
    ∀ b ∈ ([] : List (OutBatch Int Int)), b.card = 2 :=
  ⟨by omega, by decide,
   sort_agg_error_terminal_no_partial_batch 2 wKe wErrU wO [0] [[([1,1,1], true)]] [] ()
     (by omega) (by decide)⟩

theorem sort_agg_batch_size_bounds_witness :
    (1 : Nat) ≤ 4 ∧
    do_execute 4 wKe wU wO [0] [wChunk1, wChunk2, wChunk3] = ([wBatch1, wBatch2], none) ∧
    ((∀ b ∈ [wBatch1, wBatch2].dropLast, b.card = 4) ∧
     (∀ b, [wBatch1, wBatch2].getLast? = some b → 1 ≤ b.card ∧ b.card ≤ 4) ∧
     ([wBatch1, wBatch2] = [] ↔ wKe ≠ [] ∧
        ∀ c ∈ [wChunk1, wChunk2, wChunk3], compact c = [])) :=
  ⟨by omega, by decide,
   sort_agg_batch_size_bounds 4 wKe wU wO [0] [wChunk1, wChunk2, wChunk3]
     [wBatch1, wBatch2] (by omega) (by decide)⟩

theorem sort_agg_boundary_unconditional_emit_witness :
    ¬ (0 : Nat) < 0 ∧
    boundary_step 3 wKe wU wO [[1,1,1]] [[1], [1]] 0 0 wSt = close_group 3 wKe wO wSt :=
  ⟨by omega,
   (sort_agg_boundary_unconditional_emit 3 wKe wU wO [[1,1,1]] [[1], [1]] 0 0 wSt).1
     (by omega)⟩


section TailFrom

variable {K Row A AggState E : Type} [DecidableEq K]


theorem chunk_tail_eq_tail_from (L : Nat) (keyExprs : List (Row → Except E K))
    (aggUpdate : AggState → List Row → Nat → Nat → Except E AggState)
    (aggOutput : AggState → Except E (A × AggState))
    (rows : List Row) (cols : List (List K)) (groups : List Nat)
    (st : AggSt K A AggState) :
    chunk_tail L keyExprs aggUpdate aggOutput rows cols groups st =
      tail_from L keyExprs aggUpdate aggOutput rows cols groups 0 st := rfl

end TailFrom

/-!
## Merge lemmas for boundary lists
-/

section MergeLemmas

theorem insert_index_succ (x : Nat) (Z : List Nat) :
    insert_index (x + 1) (Z.map Nat.succ) = (insert_index x Z).map Nat.succ := by
  induction Z with
  | nil => rfl
  | cons z Z ih =>
    simp only [List.map_cons, insert_index]
    by_cases h1 : x < z
    · simp [h1, Nat.succ_lt_succ h1, Nat.succ_eq_add_one]
    · by_cases h2 : x = z
      · simp [h1, h2, Nat.succ_eq_add_one]
      · have hlt : ¬ x + 1 < z + 1 := by omega
        have heq : ¬ x + 1 = z + 1 := by omega
        simp [h1, h2, hlt, heq, ih, Nat.succ_eq_add_one]

theorem merge_indices_succ (X Y : List Nat) :
    merge_indices (X.map Nat.succ) (Y.map Nat.succ) = (merge_indices X Y).map Nat.succ := by
  induction X with
  | nil => rfl
  | cons x X ih =>
    simp only [List.map_cons, merge_indices, List.foldr] at ih ⊢
    rw [ih, Nat.succ_eq_add_one, insert_index_succ]

theorem insert_index_zero_succ (W : List Nat) :
    insert_index 0 (W.map Nat.succ) = 0 :: W.map Nat.succ := by
  cases W with
  | nil => rfl
  | cons w W => simp [insert_index]

theorem insert_index_zero_zero (l : List Nat) : insert_index 0 (0 :: l) = 0 :: l := by
  simp [insert_index]

theorem merge_indices_succ_zero (X Y : List Nat) :
    merge_indices (X.map Nat.succ) (0 :: Y.map Nat.succ) =
      0 :: (merge_indices X Y).map Nat.succ := by
  induction X with
  | nil => rfl
  | cons x X ih =>
    simp only [List.map_cons, merge_indices, List.foldr] at ih ⊢
    rw [ih]
    simp only [insert_index, Nat.succ_eq_add_one]
    have h1 : ¬ x + 1 < 0 := by omega
    have h2 : ¬ x + 1 = 0 := by omega
    simp [h1, h2, insert_index_succ]

theorem merge_indices_peel (a b : Bool) (X Y : List Nat) :
    merge_indices ((if a then [0] else []) ++ X.map Nat.succ)
        ((if b then [0] else []) ++ Y.map Nat.succ) =
      (if (a || b) then [0] else []) ++ (merge_indices X Y).map Nat.succ := by
  have hz : ∀ (l : List Nat),
      merge_indices (0 :: X.map Nat.succ) l =
        insert_index 0 (merge_indices (X.map Nat.succ) l) := fun l => rfl
  cases a with
  | false =>
    cases b with
    | false => simpa using merge_indices_succ X Y
    | true => simpa using merge_indices_succ_zero X Y
  | true =>
    cases b with
    | false =>
      have h1 : (if true then [0] else ([] : List Nat)) = [0] := rfl
      have h2 : (if false then [0] else ([] : List Nat)) = [] := rfl
      have h3 : (if (true || false) then [0] else ([] : List Nat)) = [0] := rfl
      rw [h1, h2, h3, List.singleton_append, List.nil_append, hz,
        merge_indices_succ, insert_index_zero_succ]
      rfl
    | true =>
      have h1 : (if true then [0] else ([] : List Nat)) = [0] := rfl
      have h3 : (if (true || true) then [0] else ([] : List Nat)) = [0] := rfl
      rw [h1, h3, List.singleton_append, List.singleton_append, hz,
        merge_indices_succ_zero, insert_index_zero_zero]
      rfl

end MergeLemmas

section DetectPeel

variable {K : Type} [DecidableEq K]

theorem change_at_cons_succ (g : Option K) (k : K) (ks : List K) (i : Nat) :
    change_at g (k :: ks) (i + 1) = change_at (some k) ks i := by
  cases i with
  | zero => simp [change_at]
  | succ j => simp [change_at]

theorem change_at_zero_none (k : K) (ks : List K) :
    change_at (none : Option K) (k :: ks) 0 = false := by
  simp [change_at]

theorem change_at_zero_some (p k : K) (ks : List K) :
    change_at (some p) (k :: ks) 0 = decide (p ≠ k) := by
  simp [change_at]

theorem detect_groups_cons (g : Option K) (k : K) (ks : List K) :
    detect_groups g (k :: ks) =
      (if change_at g (k :: ks) 0 then [0] else []) ++
        (detect_groups (some k) ks).map Nat.succ := by
  simp only [detect_groups, List.length_cons]
  rw [List.range_succ_eq_map, List.filter_cons]
  have hcomp : (List.map Nat.succ (List.range ks.length)).filter (change_at g (k :: ks)) =
      ((List.range ks.length).filter (change_at (some k) ks)).map Nat.succ := by
    rw [List.filter_map]
    congr 1
    apply List.filter_congr
    intro i _
    exact change_at_cons_succ g k ks i
  rw [hcomp]
  by_cases h0 : change_at g (k :: ks) 0 = true
  · simp [h0]
  · simp [h0]

end DetectPeel

section IntersectPeel

variable {K Row : Type} [DecidableEq K]

theorem tuple_change_cons_bool (f : Row → K) (fs : List (Row → K)) (pr r : Row) :
    (decide (f pr ≠ f r) || decide (key_tuple fs pr ≠ key_tuple fs r)) =
      decide (key_tuple (f :: fs) pr ≠ key_tuple (f :: fs) r) := by
  by_cases h1 : f pr = f r <;> by_cases h2 : key_tuple fs pr = key_tuple fs r <;>
    simp [key_tuple, h1, h2]

theorem intersect_peel (fns : List (Row → K)) (prev : Option Row) (r : Row)
    (rows : List Row) :
    intersect_groups (List.zipWith (fun g col => detect_groups g col)
        (groupers_of fns prev) (cols_of fns (r :: rows))) =
      (if tuple_change fns prev r then [0] else []) ++
        (intersect_groups (List.zipWith (fun g col => detect_groups g col)
          (groupers_of fns (some r)) (cols_of fns rows))).map Nat.succ := by
  induction fns with
  | nil =>
    have htc : tuple_change ([] : List (Row → K)) prev r = false := by
      cases prev <;> simp [tuple_change, key_tuple]
    simp [groupers_of, cols_of, intersect_groups, htc]
  | cons f fs ih =>
    have hcons : List.zipWith (fun g col => detect_groups g col)
        (groupers_of (f :: fs) prev) (cols_of (f :: fs) (r :: rows)) =
      detect_groups (prev.map f) (f r :: rows.map f) ::
        List.zipWith (fun g col => detect_groups g col)
          (groupers_of fs prev) (cols_of fs (r :: rows)) := by
      simp [groupers_of, cols_of]
    have hcons2 : List.zipWith (fun g col => detect_groups g col)
        (groupers_of (f :: fs) (some r)) (cols_of (f :: fs) rows) =
      detect_groups (some (f r)) (rows.map f) ::
        List.zipWith (fun g col => detect_groups g col)
          (groupers_of fs (some r)) (cols_of fs rows) := by
      simp [groupers_of, cols_of]
    rw [hcons, hcons2]
    show merge_indices (detect_groups (prev.map f) (f r :: rows.map f))
        (intersect_groups (List.zipWith (fun g col => detect_groups g col)
          (groupers_of fs prev) (cols_of fs (r :: rows)))) = _
    rw [detect_groups_cons, ih, merge_indices_peel]
    have hb : (change_at (prev.map f) (f r :: rows.map f) 0 || tuple_change fs prev r) =
        tuple_change (f :: fs) prev r := by
      cases prev with
      | none => simp [change_at_zero_none, tuple_change]
      | some pr =>
        have hm : Option.map f (some pr) = some (f pr) := rfl
        rw [hm, change_at_zero_some]
        simp only [tuple_change]
        exact tuple_change_cons_bool f fs pr r
    rw [hb]
    rfl

end IntersectPeel

section ZipHelpers

variable {α β γ δ : Type}

theorem zipWith_map_same (f : β → γ → δ) (g : α → β) (h : α → γ) (l : List α) :
    List.zipWith f (l.map g) (l.map h) = l.map (fun x => f (g x) (h x)) := by
  induction l with
  | nil => rfl
  | cons x l ih => simp [ih]

theorem zipWith_const_right (f : β → γ) (gs : List α) (l : List β)
    (h : gs.length = l.length) :
    List.zipWith (fun _a b => f b) gs l = l.map f := by
  induction gs generalizing l with
  | nil => cases l with | nil => rfl | cons b bs => simp at h
  | cons a as ih =>
    cases l with
    | nil => simp at h
    | cons b bs =>
      simp only [List.length_cons, Nat.succ.injEq] at h
      simp [ih bs h]

theorem zip_map_pair (f : α → β → γ) (ss : List α) (bs : List β) :
    (ss.zip bs).map (fun p => f p.1 p.2) = List.zipWith f ss bs := by
  induction ss generalizing bs with
  | nil => rfl
  | cons s ss ih => cases bs with | nil => rfl | cons b bs => simp [ih]

end ZipHelpers

section ShiftLemmas

variable {K Row A S E : Type} [DecidableEq K]
variable (fns : List (Row → K)) (init : S) (step : S → Row → S) (out : S → A)

theorem groupers_of_some (r : Row) :
    groupers_of fns (some r) = fns.map (fun f => some (f r)) := rfl

theorem update_groupers_full (gs : List (Option K)) (l : List Row) (s e : Nat)
    (hg : gs.length = fns.length) :
    update_sorted_groupers gs (cols_of fns l) s e = fns.map (fun f => (l.map f)[e-1]?) := by
  unfold update_sorted_groupers cols_of grouper_update
  rw [List.zipWith_map_right]
  exact zipWith_const_right (fun f => (l.map f)[e-1]?) gs fns hg

theorem update_groupers_shift (gs : List (Option K)) (r : Row) (rows : List Row)
    (s' s i : Nat) (hi : 1 ≤ i) :
    update_sorted_groupers gs (cols_of fns (r :: rows)) s' (i + 1) =
      update_sorted_groupers gs (cols_of fns rows) s i := by
  cases i with
  | zero => omega
  | succ j =>
    unfold update_sorted_groupers cols_of grouper_update
    rw [List.zipWith_map_right, List.zipWith_map_right]
    congr 1
    funext g f
    simp

theorem update_agg_states_shift (ss : List S) (r : Row) (rows : List Row) (s i : Nat) :
    update_agg_states (E := E) (fold_update step) ss (r :: rows) (s + 1) (i + 1) =
      update_agg_states (fold_update step) ss rows s i := by
  rw [update_agg_states_fold, update_agg_states_fold]
  simp [List.drop_succ_cons, Nat.succ_sub_succ]

theorem update_agg_states_head (ss : List S) (r : Row) (rows : List Row) (i : Nat) :
    update_agg_states (E := E) (fold_update step) ss (r :: rows) 0 (i + 1) =
      update_agg_states (fold_update step) (ss.map (fun s => step s r)) rows 0 i := by
  rw [update_agg_states_fold, update_agg_states_fold]
  simp only [List.drop_zero, Nat.sub_zero, List.take_succ_cons, List.foldl_cons,
    List.map_map, Except.ok.injEq]
  rfl

theorem boundary_step_shift (r : Row) (rows : List Row) (s i : Nat)
    (st : AggSt K A S) :
    boundary_step (E := E) L (pure_exprs fns) (fold_update step) (fold_output out init)
        (r :: rows) (cols_of fns (r :: rows)) (s + 1) (i + 1) st =
      boundary_step L (pure_exprs fns) (fold_update step) (fold_output out init)
        rows (cols_of fns rows) s i st := by
  unfold boundary_step
  by_cases hlt : s < i
  · rw [if_pos (by omega), if_pos hlt]
    rw [update_groupers_shift fns st.sorted_groupers r rows (s+1) s i (by omega)]
    rw [update_agg_states_shift step st.agg_states r rows s i]
  · rw [if_neg (by omega), if_neg hlt]

theorem run_boundaries_shift (r : Row) (rows : List Row) :
    ∀ (bs : List Nat) (s : Nat) (st : AggSt K A S),
    run_boundaries (E := E) L (pure_exprs fns) (fold_update step) (fold_output out init)
        (r :: rows) (cols_of fns (r :: rows)) (bs.map Nat.succ) (s + 1) st =
      ((run_boundaries (E := E) L (pure_exprs fns) (fold_update step)
          (fold_output out init) rows (cols_of fns rows) bs s st).1,
       (run_boundaries (E := E) L (pure_exprs fns) (fold_update step)
          (fold_output out init) rows (cols_of fns rows) bs s st).2.map
         (fun p => (p.1, p.2 + 1))) := by
  intro bs
  induction bs with
  | nil => intro s st; rfl
  | cons i is ih =>
    intro s st
    show run_boundaries _ _ _ _ _ _ (Nat.succ i :: is.map Nat.succ) _ _ = _
    simp only [run_boundaries, Nat.succ_eq_add_one]
    rw [boundary_step_shift fns init step out r rows s i st]
    cases hstep : boundary_step (E := E) L (pure_exprs fns) (fold_update step)
        (fold_output out init) rows (cols_of fns rows) s i st with
    | error e => rfl
    | ok p =>
      obtain ⟨bs1, st1⟩ := p
      simp only []
      rw [ih i st1]

end ShiftLemmas

section TailFromLemmas

variable {K Row A AggState E : Type} [DecidableEq K]

theorem tail_from_cons (L : Nat) (keyExprs : List (Row → Except E K))
    (aggUpdate : AggState → List Row → Nat → Nat → Except E AggState)
    (aggOutput : AggState → Except E (A × AggState))
    (rows : List Row) (cols : List (List K)) (i : Nat) (is : List Nat) (s : Nat)
    (st : AggSt K A AggState) :
    tail_from L keyExprs aggUpdate aggOutput rows cols (i :: is) s st =
      match boundary_step L keyExprs aggUpdate aggOutput rows cols s i st with
      | .error e => ([], .error e)
      | .ok (b1, st1) =>
        (b1 ++ (tail_from L keyExprs aggUpdate aggOutput rows cols is i st1).1,
         (tail_from L keyExprs aggUpdate aggOutput rows cols is i st1).2) := by
  cases hstep : boundary_step L keyExprs aggUpdate aggOutput rows cols s i st with
  | error e =>
    simp only [tail_from, run_boundaries, hstep]
  | ok p =>
    obtain ⟨b1, st1⟩ := p
    simp only [tail_from, run_boundaries, hstep]
    rcases hrb : run_boundaries L keyExprs aggUpdate aggOutput rows cols is i st1
      with ⟨bs2, r2⟩
    cases r2 with
    | error e => simp
    | ok q =>
      obtain ⟨st2, start⟩ := q
      by_cases hlt : start < rows.length
      · simp only [if_pos hlt]
        cases update_agg_states aggUpdate st2.agg_states rows start rows.length with
        | error e => simp
        | ok aggs1 => simp
      · simp only [if_neg hlt]

end TailFromLemmas

section TailShift

variable {K Row A S E : Type} [DecidableEq K]
variable (fns : List (Row → K)) (init : S) (step : S → Row → S) (out : S → A)

theorem tail_from_shift (L : Nat) (r : Row) (rows : List Row) (bs : List Nat) (s : Nat)
    (st : AggSt K A S) :
    tail_from (E := E) L (pure_exprs fns) (fold_update step) (fold_output out init)
        (r :: rows) (cols_of fns (r :: rows)) (bs.map Nat.succ) (s + 1) st =
      tail_from L (pure_exprs fns) (fold_update step) (fold_output out init)
        rows (cols_of fns rows) bs s st := by
  unfold tail_from
  rw [run_boundaries_shift fns init step out r rows bs s st]
  rcases hrb : run_boundaries (E := E) L (pure_exprs fns) (fold_update step)
      (fold_output out init) rows (cols_of fns rows) bs s st with ⟨bs0, r0⟩
  cases r0 with
  | error e => rfl
  | ok p =>
    obtain ⟨st1, start⟩ := p
    simp only [Except.map, List.length_cons]
    by_cases hlt : start < rows.length
    · rw [if_pos (by omega), if_pos hlt]
      rw [update_groupers_shift fns st1.sorted_groupers r rows (start + 1) start
        rows.length (by omega)]
      rw [update_agg_states_shift step st1.agg_states r rows start rows.length]
    · rw [if_neg (by omega), if_neg hlt]

theorem boundary_step_head (L : Nat) (r : Row) (rows : List Row) (i : Nat)
    (st : AggSt K A S) (hg : st.sorted_groupers.length = fns.length) :
    boundary_step (E := E) L (pure_exprs fns) (fold_update step) (fold_output out init)
        (r :: rows) (cols_of fns (r :: rows)) 0 (i + 1) st =
      boundary_step L (pure_exprs fns) (fold_update step) (fold_output out init)
        rows (cols_of fns rows) 0 i (absorb fns step r st) := by
  unfold boundary_step
  rw [if_pos (Nat.succ_pos i)]
  rw [update_agg_states_head step st.agg_states r rows i]
  rw [update_groupers_full fns st.sorted_groupers (r :: rows) 0 (i + 1) hg]
  cases i with
  | zero =>
    rw [if_neg (lt_irrefl 0)]
    rw [update_agg_states_fold]
    have hmid : ({ st with
        sorted_groupers := fns.map (fun f => ((r :: rows).map f)[0+1-1]?),
        agg_states := (st.agg_states.map (fun s => step s r)).map
          (fun s => ((rows.drop 0).take (0 - 0)).foldl step s) } : AggSt K A S) =
        absorb fns step r st := by
      simp [absorb]
    exact congrArg (close_group L (pure_exprs fns) (fold_output out init)) hmid
  | succ j =>
    rw [if_pos (Nat.succ_pos j)]
    rw [update_groupers_full fns (absorb fns step r st).sorted_groupers rows 0 (j + 1)
      (by simp [absorb])]
    have hgs : fns.map (fun f => ((r :: rows).map f)[j+1+1-1]?) =
        fns.map (fun f => (rows.map f)[j+1-1]?) := by
      simp
    rw [hgs]
    have habs : (absorb fns step r st).agg_states = List.map (fun s => step s r) st.agg_states :=
      rfl
    rw [habs]
    dsimp only [absorb]

theorem tail_from_absorb (L : Nat) (r : Row) (rows : List Row) (bs : List Nat)
    (st : AggSt K A S) (hg : st.sorted_groupers.length = fns.length) :
    tail_from (E := E) L (pure_exprs fns) (fold_update step) (fold_output out init)
        (r :: rows) (cols_of fns (r :: rows)) (bs.map Nat.succ) 0 st =
      tail_from L (pure_exprs fns) (fold_update step) (fold_output out init)
        rows (cols_of fns rows) bs 0 (absorb fns step r st) := by
  cases bs with
  | nil =>
    unfold tail_from
    cases hrows : rows with
    | nil =>
      subst hrows
      simp only [run_boundaries, List.map_nil, List.length_cons, List.length_nil]
      rw [if_pos (by omega), if_neg (by omega)]
      rw [update_groupers_full fns st.sorted_groupers [r] 0 (0 + 1) hg]
      rw [update_agg_states_fold]
      have hmid : ({ st with
          sorted_groupers := fns.map (fun f => (([r] : List Row).map f)[0 + 1 - 1]?),
          agg_states := st.agg_states.map
            (fun s => ((([r] : List Row).drop 0).take (0 + 1 - 0)).foldl step s) } :
          AggSt K A S) = absorb fns step r st := by
        simp [absorb]
      exact congrArg
        (fun z => (([] : List (OutBatch K A)), (Except.ok z : Except E (AggSt K A S))))
        hmid
    | cons r2 rows2 =>
      rw [← hrows]
      have hlen : rows.length = rows2.length + 1 := by rw [hrows]; rfl
      simp only [run_boundaries, List.map_nil, List.length_cons]
      rw [if_pos (by omega), if_pos (by omega)]
      rw [update_groupers_full fns st.sorted_groupers (r :: rows) 0 (rows.length + 1) hg]
      rw [update_groupers_full fns (absorb fns step r st).sorted_groupers rows 0 rows.length
        (by simp [absorb])]
      rw [update_agg_states_head step st.agg_states r rows rows.length]
      have hgs : fns.map (fun f => ((r :: rows).map f)[rows.length + 1 - 1]?) =
          fns.map (fun f => (rows.map f)[rows.length - 1]?) := by
        apply List.map_congr_left
        intro f _
        rw [hlen]
        simp [List.getElem?_cons_succ]
      rw [hgs]
      have habs : (absorb fns step r st).agg_states =
          List.map (fun s => step s r) st.agg_states := rfl
      rw [habs]
      dsimp only [absorb]
  | cons i is =>
    show tail_from (E := E) L (pure_exprs fns) (fold_update step) (fold_output out init)
        (r :: rows) (cols_of fns (r :: rows)) (Nat.succ i :: is.map Nat.succ) 0 st = _
    rw [tail_from_cons, tail_from_cons]
    rw [show Nat.succ i = i + 1 from rfl]
    rw [boundary_step_head fns init step out L r rows i st hg]
    cases hstep : boundary_step (E := E) L (pure_exprs fns) (fold_update step)
        (fold_output out init) rows (cols_of fns rows) 0 i (absorb fns step r st) with
    | error e => rfl
    | ok p =>
      obtain ⟨b1, st1⟩ := p
      simp only []
      rw [tail_from_shift fns init step out L r rows is i st1]


end TailShift

section MachineEquiv

variable {K Row A S E : Type} [DecidableEq K]
variable (fns : List (Row → K)) (init : S) (step : S → Row → S) (out : S → A)

theorem map_const_len {α β γ : Type} (l1 : List α) (l2 : List β) (c : γ)
    (h : l1.length = l2.length) : l1.map (fun _ => c) = l2.map (fun _ => c) := by
  induction l1 generalizing l2 with
  | nil => cases l2 with | nil => rfl | cons b bs => simp at h
  | cons a as ih =>
    cases l2 with
    | nil => simp at h
    | cons b bs =>
      simp only [List.length_cons, Nat.succ.injEq] at h
      simp [ih bs h]

theorem close_group_total (L : Nat) (st : AggSt K A S)
    (hlen : st.agg_states.length = st.agg_builders.length) :
    close_group (E := E) L (pure_exprs fns) (fold_output out init) st =
      .ok (close_total L fns out init st) := by
  have hout : output_agg_states (E := E) (fold_output out init)
      st.agg_states st.agg_builders =
      .ok (st.agg_states.map (fun _ => init),
           List.zipWith (fun s b => b ++ [out s]) st.agg_states st.agg_builders) := by
    rw [output_agg_states_fold]
    rw [map_const_len (st.agg_states.zip st.agg_builders) st.agg_states init
      (by simp [List.length_zip, hlen])]
    rw [zip_map_pair (fun s b => b ++ [out s]) st.agg_states st.agg_builders]
  by_cases hc : st.left_capacity - 1 = 0
  · rw [close_group_eq_flush hout hc]
    unfold close_total
    rw [if_pos hc]
    have hke : (pure_exprs (E := E) fns).map (fun _ => ([] : List (Option K))) =
        fns.map (fun _ => []) := by
      unfold pure_exprs
      rw [List.map_map]
      rfl
    rw [hke]
  · rw [close_group_eq_cont hout hc]
    unfold close_total
    rw [if_neg hc]

theorem close_total_groupers (L : Nat) (st : AggSt K A S) :
    (close_total L fns out init st).2.sorted_groupers = st.sorted_groupers := by
  unfold close_total
  split <;> rfl

theorem close_total_lens (L : Nat) (st : AggSt K A S)
    (hlen : st.agg_states.length = st.agg_builders.length) :
    (close_total L fns out init st).2.agg_states.length =
      (close_total L fns out init st).2.agg_builders.length := by
  unfold close_total
  split
  · simp
  · simp [hlen]

theorem absorb_groupers (r : Row) (st : AggSt K A S) :
    (absorb fns step r st).sorted_groupers = groupers_of fns (some r) := rfl

theorem groupers_of_length (prev : Option Row) :
    (groupers_of fns prev).length = fns.length := by
  simp [groupers_of]

theorem process_rows_eq_tail (L : Nat) (rows : List Row) (st : AggSt K A S) :
    process_rows (E := E) L (pure_exprs fns) (fold_update step) (fold_output out init)
        rows st =
      tail_from L (pure_exprs fns) (fold_update step) (fold_output out init)
        rows (cols_of fns rows)
        (intersect_groups (List.zipWith (fun g col => detect_groups g col)
          st.sorted_groupers (cols_of fns rows))) 0 st := by
  simp only [process_rows, eval_key_columns_pure]
  rfl

theorem mrun_cons_close (L : Nat) (prev : Option Row) (r : Row) (rs : List Row)
    (st : AggSt K A S) (htc : tuple_change fns prev r = true) :
    mrun L fns init step out prev st (r :: rs) =
      ((close_total L fns out init st).1 ++
        (mrun L fns init step out (some r)
          (absorb fns step r (close_total L fns out init st).2) rs).1,
       (mrun L fns init step out (some r)
          (absorb fns step r (close_total L fns out init st).2) rs).2) := by
  simp [mrun, htc]

theorem mrun_cons_cont (L : Nat) (prev : Option Row) (r : Row) (rs : List Row)
    (st : AggSt K A S) (htc : tuple_change fns prev r = false) :
    mrun L fns init step out prev st (r :: rs) =
      mrun L fns init step out (some r) (absorb fns step r st) rs := by
  simp [mrun, htc]

theorem process_rows_machine (L : Nat) :
    ∀ (rows : List Row) (prev : Option Row) (st : AggSt K A S),
    st.sorted_groupers = groupers_of fns prev →
    st.agg_states.length = st.agg_builders.length →
    process_rows (E := E) L (pure_exprs fns) (fold_update step) (fold_output out init)
        rows st =
      ((mrun L fns init step out prev st rows).1,
       .ok (mrun L fns init step out prev st rows).2.2) := by
  intro rows
  induction rows with
  | nil =>
    intro prev st hcoh hlen
    rw [process_rows_nil]
    rfl
  | cons r rs ih =>
    intro prev st hcoh hlen
    rw [process_rows_eq_tail fns init step out L (r :: rs) st, hcoh,
      intersect_peel fns prev r rs]
    by_cases htc : tuple_change fns prev r = true
    · rw [if_pos htc, List.singleton_append]
      rcases hct : close_total L fns out init st with ⟨cb, cst⟩
      have hstep : boundary_step (E := E) L (pure_exprs fns) (fold_update step)
          (fold_output out init) (r :: rs) (cols_of fns (r :: rs)) 0 0 st =
          .ok (cb, cst) := by
        unfold boundary_step
        rw [if_neg (lt_irrefl 0)]
        rw [close_group_total fns init out L st hlen, hct]
      rw [tail_from_cons, hstep]
      simp only []
      have hgst : cst.sorted_groupers.length = fns.length := by
        have h1 : cst.sorted_groupers = st.sorted_groupers := by
          have := close_total_groupers fns init out L st
          rw [hct] at this
          exact this
        rw [h1, hcoh, groupers_of_length]
      rw [tail_from_absorb fns init step out L r rs _ cst hgst]
      rw [← absorb_groupers fns step r cst]
      rw [← process_rows_eq_tail fns init step out L rs (absorb fns step r cst)]
      rw [ih (some r) (absorb fns step r cst) (absorb_groupers fns step r cst) (by
        have h2 : cst.agg_states.length = cst.agg_builders.length := by
          have := close_total_lens fns init out L st hlen
          rw [hct] at this
          exact this
        simp [absorb, h2])]
      rw [mrun_cons_close fns init step out L prev r rs st htc, hct]
    · rw [if_neg htc, List.nil_append]
      have hg : st.sorted_groupers.length = fns.length := by
        rw [hcoh, groupers_of_length]
      rw [tail_from_absorb fns init step out L r rs _ st hg]
      rw [← absorb_groupers fns step r st]
      rw [← process_rows_eq_tail fns init step out L rs (absorb fns step r st)]
      rw [ih (some r) (absorb fns step r st) (absorb_groupers fns step r st)
        (by simp [absorb, hlen])]
      rw [mrun_cons_cont fns init step out L prev r rs st (by
        cases h : tuple_change fns prev r with
        | false => rfl
        | true => exact absurd h htc)]

end MachineEquiv

section RunsLemmas

variable {K Row : Type} [DecidableEq K]
variable (fns : List (Row → K))

theorem runs_by_cons_nil (r : Row) (rs : List Row) (h : runs_by fns rs = []) :
    runs_by fns (r :: rs) = [(r, [])] := by
  simp only [runs_by, h]

theorem runs_by_cons_eq (r h1 : Row) (rs t1 : List Row) (more : List (Row × List Row))
    (h : runs_by fns rs = (h1, t1) :: more) (hk : key_tuple fns r = key_tuple fns h1) :
    runs_by fns (r :: rs) = (r, h1 :: t1) :: more := by
  simp only [runs_by, h]
  rw [if_pos hk]

theorem runs_by_cons_ne (r h1 : Row) (rs t1 : List Row) (more : List (Row × List Row))
    (h : runs_by fns rs = (h1, t1) :: more) (hk : ¬ key_tuple fns r = key_tuple fns h1) :
    runs_by fns (r :: rs) = (r, []) :: (h1, t1) :: more := by
  simp only [runs_by, h]
  rw [if_neg hk]

theorem runs_flatten_runs_by (rows : List Row) :
    runs_flatten (runs_by fns rows) = rows := by
  induction rows with
  | nil => rfl
  | cons r rs ih =>
    cases h : runs_by fns rs with
    | nil =>
      rw [runs_by_cons_nil fns r rs h]
      rw [h] at ih
      simp only [runs_flatten, List.foldr] at ih ⊢
      rw [← ih]
      simp
    | cons p more =>
      obtain ⟨h1, t1⟩ := p
      rw [h] at ih
      by_cases hk : key_tuple fns r = key_tuple fns h1
      · rw [runs_by_cons_eq fns r h1 rs t1 more h hk]
        simp only [runs_flatten, List.foldr] at ih ⊢
        rw [← ih]
        simp
      · rw [runs_by_cons_ne fns r h1 rs t1 more h hk]
        simp only [runs_flatten, List.foldr] at ih ⊢
        rw [← ih]
        simp

theorem runs_by_run_const (rows : List Row) :
    ∀ p ∈ runs_by fns rows, ∀ x ∈ p.2, key_tuple fns x = key_tuple fns p.1 := by
  induction rows with
  | nil => simp [runs_by]
  | cons r rs ih =>
    cases h : runs_by fns rs with
    | nil =>
      rw [runs_by_cons_nil fns r rs h]
      intro p hp
      simp only [List.mem_singleton] at hp
      subst hp
      simp
    | cons q more =>
      obtain ⟨h1, t1⟩ := q
      rw [h] at ih
      by_cases hk : key_tuple fns r = key_tuple fns h1
      · rw [runs_by_cons_eq fns r h1 rs t1 more h hk]
        intro p hp
        simp only [List.mem_cons] at hp
        rcases hp with hp | hp
        · subst hp
          intro x hx
          simp only [List.mem_cons] at hx
          rcases hx with hx | hx
          · rw [hx, hk]
          · have := ih (h1, t1) (by simp) x hx
            simp only at this
            rw [this, hk]
        · exact ih p (by simp [hp])
      · rw [runs_by_cons_ne fns r h1 rs t1 more h hk]
        intro p hp
        simp only [List.mem_cons] at hp
        rcases hp with hp | hp
        · subst hp
          simp
        · exact ih p (by simp [hp])

theorem runs_by_ne_nil (r : Row) (rs : List Row) : runs_by fns (r :: rs) ≠ [] := by
  cases h : runs_by fns rs with
  | nil => rw [runs_by_cons_nil fns r rs h]; simp
  | cons q more =>
    obtain ⟨h1, t1⟩ := q
    by_cases hk : key_tuple fns r = key_tuple fns h1
    · rw [runs_by_cons_eq fns r h1 rs t1 more h hk]; simp
    · rw [runs_by_cons_ne fns r h1 rs t1 more h hk]; simp

theorem runs_by_head (rows : List Row) (p : Row × List Row) (more : List (Row × List Row))
    (h : runs_by fns rows = p :: more) : rows = (p.1 :: p.2) ++ runs_flatten more := by
  have h1 := runs_flatten_runs_by fns rows
  rw [h] at h1
  simp only [runs_flatten, List.foldr] at h1
  rw [← h1]
  simp [runs_flatten]

theorem runs_by_split (oh : Row) (ot : List Row) (rest : List Row)
    (hconst : ∀ x ∈ oh :: ot, key_tuple fns x = key_tuple fns oh)
    (hrest : rest = [] ∨ ∀ hd tl, rest = hd :: tl → key_tuple fns hd ≠ key_tuple fns oh) :
    runs_by fns ((oh :: ot) ++ rest) = (oh, ot) :: runs_by fns rest := by
  induction ot generalizing oh with
  | nil =>
    simp only [List.cons_append, List.nil_append]
    cases hr : runs_by fns rest with
    | nil =>
      have hrnil : rest = [] := by
        cases rest with
        | nil => rfl
        | cons x xs => exact absurd hr (runs_by_ne_nil fns x xs)
      subst hrnil
      rw [runs_by_cons_nil fns oh [] rfl]
    | cons q more =>
      obtain ⟨h1, t1⟩ := q
      have hhd : rest = (h1 :: t1) ++ runs_flatten more :=
        runs_by_head fns rest (h1, t1) more hr
      have hne : key_tuple fns h1 ≠ key_tuple fns oh := by
        rcases hrest with h | h
        · rw [h] at hhd; simp at hhd
        · exact h h1 (t1 ++ runs_flatten more) (by rw [hhd]; simp)
      have hcne := runs_by_cons_ne fns oh h1 rest t1 more hr (fun hcontra => hne hcontra.symm)
      simp only [hcne, hr]
  | cons x ot ih =>
    have hconstx : ∀ y ∈ x :: ot, key_tuple fns y = key_tuple fns x := by
      intro y hy
      have hy2 : y ∈ oh :: x :: ot := by
        simp only [List.mem_cons] at hy ⊢
        tauto
      rw [hconst y hy2, ← hconst x (by simp)]
    have hrestx : rest = [] ∨
        ∀ hd tl, rest = hd :: tl → key_tuple fns hd ≠ key_tuple fns x := by
      rcases hrest with h | h
      · exact Or.inl h
      · refine Or.inr (fun hd tl hh => ?_)
        rw [hconst x (by simp)]
        exact h hd tl hh
    have hmid := ih x hconstx hrestx
    simp only [List.cons_append] at hmid ⊢
    rw [runs_by_cons_eq fns oh x (x :: (ot ++ rest)) ot (runs_by fns rest)
      hmid (by rw [hconst x (by simp)])]

theorem runs_by_const (oh : Row) (ot : List Row)
    (hconst : ∀ x ∈ oh :: ot, key_tuple fns x = key_tuple fns oh) :
    runs_by fns (oh :: ot) = [(oh, ot)] := by
  have := runs_by_split fns oh ot [] hconst (Or.inl rfl)
  simpa using this

end RunsLemmas


section SeqHelpers

variable {α β : Type}

theorem getLast_mem_of_eq : ∀ {l : List α} {a : α}, l.getLast? = some a → a ∈ l
  | [], _, h => by simp at h
  | [x], a, h => by
    simp only [List.getLast?_singleton, Option.some.injEq] at h
    simp [h]
  | x :: y :: t, a, h => by
    rw [List.getLast?_cons_cons] at h
    exact List.mem_cons_of_mem x (getLast_mem_of_eq h)

theorem getLast?_cons_ne (x : α) {l : List α} (h : l ≠ []) :
    (x :: l).getLast? = l.getLast? := by
  cases l with
  | nil => exact absurd rfl h
  | cons y t => rw [List.getLast?_cons_cons]

theorem dropLast_cons_ne (x : α) {l : List α} (h : l ≠ []) :
    (x :: l).dropLast = x :: l.dropLast := by
  cases l with
  | nil => exact absurd rfl h
  | cons y t => rfl

theorem dropLast_append_getLast : ∀ {l : List α} {a : α},
    l.getLast? = some a → l.dropLast ++ [a] = l
  | [], _, h => by simp at h
  | [x], a, h => by
    simp only [List.getLast?_singleton, Option.some.injEq] at h
    simp [h]
  | x :: y :: t, a, h => by
    rw [List.getLast?_cons_cons] at h
    rw [dropLast_cons_ne x (by simp), List.cons_append,
      dropLast_append_getLast h]

theorem map_const_reps (l : List α) (c : β) :
    l.map (fun _ => c) = List.replicate l.length c := by
  induction l with
  | nil => rfl
  | cons x t ih => simp [ih, List.replicate]

theorem isEmpty_app (l1 l2 : List α) :
    (l1 ++ l2).isEmpty = (l1.isEmpty && l2.isEmpty) := by
  cases l1 <;> simp

end SeqHelpers

section CatHelpers

variable {C K Row A S : Type} [DecidableEq K]

theorem cat_cols_assoc (a b c : List (List C)) :
    cat_cols a (cat_cols b c) = cat_cols (cat_cols a b) c := by
  induction a generalizing b c with
  | nil => rfl
  | cons x xs ih =>
    cases b with
    | nil => rfl
    | cons y ys =>
      cases c with
      | nil => rfl
      | cons z zs =>
        simp only [cat_cols, List.zipWith, List.append_assoc]
        exact congrArg (List.cons (x ++ (y ++ z))) (ih ys zs)

theorem cat_cols_reps_nil (xss : List (List C)) :
    cat_cols xss (List.replicate xss.length []) = xss := by
  induction xss with
  | nil => rfl
  | cons x xs ih => simp [cat_cols, List.replicate] at ih ⊢; exact ih

theorem echo_cols_app (fns : List (Row → K)) (p1 p2 : List (Row × List Row)) :
    echo_cols fns (p1 ++ p2) = cat_cols (echo_cols fns p1) (echo_cols fns p2) := by
  unfold echo_cols cat_cols
  rw [zipWith_map_same]
  simp

theorem echo_cols_len (fns : List (Row → K)) (pend : List (Row × List Row)) :
    (echo_cols fns pend).length = fns.length := by
  simp [echo_cols]

theorem flat_g_cons {K A : Type} (b : OutBatch K A) (bs : List (OutBatch K A))
    (gb : List (List (Option K))) :
    flat_g (b :: bs) gb = cat_cols b.group_cols (flat_g bs gb) := rfl

theorem flat_a_cons {K A : Type} (b : OutBatch K A) (bs : List (OutBatch K A))
    (ab : List (List A)) :
    flat_a (b :: bs) ab = cat_cols b.agg_cols (flat_a bs ab) := rfl

theorem flat_g_pull {K A : Type} (bs : List (OutBatch K A))
    (gb e : List (List (Option K))) :
    flat_g bs (cat_cols gb e) = cat_cols (flat_g bs gb) e := by
  induction bs with
  | nil => rfl
  | cons b t ih => rw [flat_g_cons, flat_g_cons, ih, cat_cols_assoc]

theorem flat_a_pull {K A : Type} (bs : List (OutBatch K A)) (ab e : List (List A)) :
    flat_a bs (cat_cols ab e) = cat_cols (flat_a bs ab) e := by
  induction bs with
  | nil => rfl
  | cons b t ih => rw [flat_a_cons, flat_a_cons, ih, cat_cols_assoc]

theorem out_group_cols_flat {K A : Type} (n : Nat) (bs : List (OutBatch K A)) :
    out_group_cols n bs = flat_g bs (List.replicate n []) := rfl

theorem out_agg_cols_flat {K A : Type} (n : Nat) (bs : List (OutBatch K A)) :
    out_agg_cols n bs = flat_a bs (List.replicate n []) := rfl

theorem out_group_cols_app_one {K A : Type} (n : Nat) (bs : List (OutBatch K A))
    (fb : OutBatch K A) :
    out_group_cols n (bs ++ [fb]) =
      flat_g bs (cat_cols fb.group_cols (List.replicate n [])) := by
  unfold out_group_cols flat_g
  rw [List.foldr_append]
  rfl

theorem out_agg_cols_app_one {K A : Type} (n : Nat) (bs : List (OutBatch K A))
    (fb : OutBatch K A) :
    out_agg_cols n (bs ++ [fb]) =
      flat_a bs (cat_cols fb.agg_cols (List.replicate n [])) := by
  unfold out_agg_cols flat_a
  rw [List.foldr_append]
  rfl

theorem groupers_of_key (fns : List (Row → K)) (r : Row) :
    groupers_of fns (some r) = (key_tuple fns r).map some := by
  simp [groupers_of, key_tuple, List.map_map]

theorem cat_single (a b : List C) : cat_cols [a] [b] = [a ++ b] := rfl

end CatHelpers

section MStateStep

variable {K Row A S E : Type} [DecidableEq K]
variable (fns : List (Row → K)) (init : S) (step : S → Row → S) (out : S → A)

theorem absorb_mstate (L : Nat) (pend : List (Row × List Row)) (openRows : List Row)
    (b : Bool) (r : Row) :
    absorb fns step r (mstate L fns init step out pend openRows b) =
      mstate L fns init step out pend (openRows ++ [r]) b := by
  unfold absorb mstate
  simp [List.getLast?_concat, List.foldl_append, groupers_of]

theorem output_mstate_cols (L : Nat) (pend : List (Row × List Row)) (oh : Row)
    (ot : List Row) (b : Bool)
    (hconst : ∀ x ∈ oh :: ot, key_tuple fns x = key_tuple fns oh) :
    output_sorted_groupers
        (mstate L fns init step out pend (oh :: ot) b).sorted_groupers
        (mstate L fns init step out pend (oh :: ot) b).group_builders =
      echo_cols fns (pend ++ [(oh, ot)]) := by
  have hlr : (oh :: ot).getLast? = some ((oh :: ot).getLast (List.cons_ne_nil oh ot)) :=
    List.getLast?_eq_getLast _ _
  have hk : key_tuple fns ((oh :: ot).getLast (List.cons_ne_nil oh ot)) =
      key_tuple fns oh :=
    hconst _ (List.getLast_mem _)
  unfold mstate output_sorted_groupers echo_cols
  dsimp only
  rw [hlr, groupers_of_key, hk]
  unfold key_tuple
  rw [List.map_map, zipWith_map_same]
  simp

theorem output_mstate_aggs (L : Nat) (pend : List (Row × List Row)) (oh : Row)
    (ot : List Row) (b : Bool) :
    output_agg_states (E := E) (fold_output out init)
        (mstate L fns init step out pend (oh :: ot) b).agg_states
        (mstate L fns init step out pend (oh :: ot) b).agg_builders =
      .ok ([init], [(pend ++ [(oh, ot)]).map (run_agg init step out)]) := by
  unfold mstate
  dsimp only
  rw [output_agg_states_fold]
  simp [run_agg]

theorem close_mstate_cont (L : Nat) (pend : List (Row × List Row)) (oh : Row)
    (ot : List Row) (b : Bool)
    (hconst : ∀ x ∈ oh :: ot, key_tuple fns x = key_tuple fns oh)
    (hlt : pend.length + 1 < L) :
    (close_total L fns out init (mstate L fns init step out pend (oh :: ot) b)).1 = [] ∧
    ∀ r, absorb fns step r
        (close_total L fns out init (mstate L fns init step out pend (oh :: ot) b)).2 =
      mstate L fns init step out (pend ++ [(oh, ot)]) [r] b := by
  have hc : (mstate L fns init step out pend (oh :: ot) b).left_capacity - 1 ≠ 0 := by
    unfold mstate
    dsimp only
    omega
  unfold close_total
  rw [if_neg hc]
  refine ⟨rfl, fun r => ?_⟩
  dsimp only
  rw [output_mstate_cols fns init step out L pend oh ot b hconst]
  unfold mstate absorb echo_cols
  dsimp only
  simp [groupers_of, run_agg, Nat.sub_sub]

theorem close_mstate_flush (L : Nat) (pend : List (Row × List Row)) (oh : Row)
    (ot : List Row) (b : Bool)
    (hconst : ∀ x ∈ oh :: ot, key_tuple fns x = key_tuple fns oh)
    (heq : pend.length + 1 = L) :
    (close_total L fns out init (mstate L fns init step out pend (oh :: ot) b)).1 =
      [⟨echo_cols fns (pend ++ [(oh, ot)]),
        [(pend ++ [(oh, ot)]).map (run_agg init step out)], L⟩] ∧
    ∀ r, absorb fns step r
        (close_total L fns out init (mstate L fns init step out pend (oh :: ot) b)).2 =
      mstate L fns init step out [] [r] b := by
  have hc : (mstate L fns init step out pend (oh :: ot) b).left_capacity - 1 = 0 := by
    unfold mstate
    dsimp only
    omega
  unfold close_total
  rw [if_pos hc]
  constructor
  · dsimp only
    rw [output_mstate_cols fns init step out L pend oh ot b hconst]
    unfold mstate
    dsimp only
    simp [run_agg]
  · intro r
    unfold mstate absorb echo_cols
    dsimp only
    simp [groupers_of]

end MStateStep

section MrunFrame

variable {K Row A S : Type} [DecidableEq K]
variable (fns : List (Row → K)) (init : S) (step : S → Row → S) (out : S → A)

theorem absorb_flag (c : Bool) (r : Row) (st : AggSt K A S) :
    absorb fns step r (set_flag c st) = set_flag c (absorb fns step r st) := rfl

theorem close_total_flag (L : Nat) (c : Bool) (st : AggSt K A S) :
    close_total L fns out init (set_flag c st) =
      ((close_total L fns out init st).1,
       set_flag c (close_total L fns out init st).2) := by
  unfold close_total set_flag
  dsimp only
  by_cases hc : st.left_capacity - 1 = 0
  · rw [if_pos hc, if_pos hc]
  · rw [if_neg hc, if_neg hc]

theorem mrun_flag (L : Nat) :
    ∀ (rows : List Row) (prev : Option Row) (st : AggSt K A S) (c : Bool),
    mrun L fns init step out prev (set_flag c st) rows =
      ((mrun L fns init step out prev st rows).1,
       ((mrun L fns init step out prev st rows).2.1,
        set_flag c (mrun L fns init step out prev st rows).2.2)) := by
  intro rows
  induction rows with
  | nil => intro prev st c; rfl
  | cons r rs ih =>
    intro prev st c
    by_cases htc : tuple_change fns prev r = true
    · rw [mrun_cons_close fns init step out L prev r rs (set_flag c st) htc,
        mrun_cons_close fns init step out L prev r rs st htc,
        close_total_flag fns init out L c st]
      dsimp only
      rw [absorb_flag fns step c r, ih]
    · have htc2 : tuple_change fns prev r = false := by
        cases h : tuple_change fns prev r with
        | false => rfl
        | true => exact absurd h htc
      rw [mrun_cons_cont fns init step out L prev r rs (set_flag c st) htc2,
        mrun_cons_cont fns init step out L prev r rs st htc2,
        absorb_flag fns step c r, ih]

theorem mrun_append (L : Nat) :
    ∀ (xs ys : List Row) (prev : Option Row) (st : AggSt K A S),
    mrun L fns init step out prev st (xs ++ ys) =
      ((mrun L fns init step out prev st xs).1 ++
        (mrun L fns init step out (mrun L fns init step out prev st xs).2.1
          (mrun L fns init step out prev st xs).2.2 ys).1,
       (mrun L fns init step out (mrun L fns init step out prev st xs).2.1
          (mrun L fns init step out prev st xs).2.2 ys).2) := by
  intro xs
  induction xs with
  | nil => intro ys prev st; simp [mrun]
  | cons x xs ih =>
    intro ys prev st
    by_cases htc : tuple_change fns prev x = true
    · rw [List.cons_append,
        mrun_cons_close fns init step out L prev x (xs ++ ys) st htc,
        mrun_cons_close fns init step out L prev x xs st htc, ih]
      dsimp only
      rw [List.append_assoc]
    · have htc2 : tuple_change fns prev x = false := by
        cases h : tuple_change fns prev x with
        | false => rfl
        | true => exact absurd h htc
      rw [List.cons_append,
        mrun_cons_cont fns init step out L prev x (xs ++ ys) st htc2,
        mrun_cons_cont fns init step out L prev x xs st htc2, ih]

theorem mrun_groupers (L : Nat) :
    ∀ (rows : List Row) (prev : Option Row) (st : AggSt K A S),
    st.sorted_groupers = groupers_of fns prev →
    (mrun L fns init step out prev st rows).2.2.sorted_groupers =
      groupers_of fns (mrun L fns init step out prev st rows).2.1 := by
  intro rows
  induction rows with
  | nil => intro prev st h; exact h
  | cons r rs ih =>
    intro prev st h
    by_cases htc : tuple_change fns prev r = true
    · rw [mrun_cons_close fns init step out L prev r rs st htc]
      dsimp only
      exact ih (some r) _ (absorb_groupers fns step r _)
    · have htc2 : tuple_change fns prev r = false := by
        cases hx : tuple_change fns prev r with
        | false => rfl
        | true => exact absurd hx htc
      rw [mrun_cons_cont fns init step out L prev r rs st htc2]
      exact ih (some r) _ (absorb_groupers fns step r _)

theorem mrun_lens (L : Nat) :
    ∀ (rows : List Row) (prev : Option Row) (st : AggSt K A S),
    st.agg_states.length = st.agg_builders.length →
    (mrun L fns init step out prev st rows).2.2.agg_states.length =
      (mrun L fns init step out prev st rows).2.2.agg_builders.length := by
  intro rows
  induction rows with
  | nil => intro prev st h; exact h
  | cons r rs ih =>
    intro prev st h
    by_cases htc : tuple_change fns prev r = true
    · rw [mrun_cons_close fns init step out L prev r rs st htc]
      dsimp only
      refine ih (some r) _ ?_
      have h2 := close_total_lens fns init out L st h
      simp [absorb, h2]
    · have htc2 : tuple_change fns prev r = false := by
        cases hx : tuple_change fns prev r with
        | false => rfl
        | true => exact absurd hx htc
      rw [mrun_cons_cont fns init step out L prev r rs st htc2]
      refine ih (some r) _ ?_
      simp [absorb, h]

end MrunFrame

section MrunRuns

variable {K Row A S : Type} [DecidableEq K]
variable (fns : List (Row → K)) (init : S) (step : S → Row → S) (out : S → A)

theorem mrun_mstate (L : Nat) (hL : 1 ≤ L) :
    ∀ (rows : List Row) (pend : List (Row × List Row)) (oh : Row) (ot : List Row)
      (b : Bool),
    (∀ x ∈ oh :: ot, key_tuple fns x = key_tuple fns oh) →
    pend.length < L →
    ∃ bs pendF fi ft,
      mrun L fns init step out ((oh :: ot).getLast?)
          (mstate L fns init step out pend (oh :: ot) b) rows =
        (bs, ((fi :: ft).getLast?, mstate L fns init step out pendF (fi :: ft) b)) ∧
      (runs_by fns ((oh :: ot) ++ rows)).getLast? = some (fi, ft) ∧
      (∀ x ∈ fi :: ft, key_tuple fns x = key_tuple fns fi) ∧
      pendF.length < L ∧
      flat_g bs (echo_cols fns pendF) =
        echo_cols fns (pend ++ (runs_by fns ((oh :: ot) ++ rows)).dropLast) ∧
      flat_a bs [pendF.map (run_agg init step out)] =
        [(pend ++ (runs_by fns ((oh :: ot) ++ rows)).dropLast).map
          (run_agg init step out)] := by
  intro rows
  induction rows with
  | nil =>
    intro pend oh ot b hconst hlen
    refine ⟨[], pend, oh, ot, rfl, ?_, hconst, hlen, ?_, ?_⟩
    · rw [List.append_nil, runs_by_const fns oh ot hconst]
      rfl
    · rw [List.append_nil, runs_by_const fns oh ot hconst]
      simp [flat_g]
    · rw [List.append_nil, runs_by_const fns oh ot hconst]
      simp [flat_a]
  | cons r rs ih =>
    intro pend oh ot b hconst hlen
    have hlr : (oh :: ot).getLast? =
        some ((oh :: ot).getLast (List.cons_ne_nil oh ot)) :=
      List.getLast?_eq_getLast _ _
    have hklr : key_tuple fns ((oh :: ot).getLast (List.cons_ne_nil oh ot)) =
        key_tuple fns oh :=
      hconst _ (List.getLast_mem _)
    by_cases hk : key_tuple fns r = key_tuple fns oh
    · -- same key: the open run absorbs the row
      have htc : tuple_change fns ((oh :: ot).getLast?) r = false := by
        unfold tuple_change
        rw [hlr]
        simp [hklr, hk]
      rw [mrun_cons_cont fns init step out L _ r rs _ htc,
        absorb_mstate fns init step out L pend (oh :: ot) b r]
      have hpr : (oh :: (ot ++ [r])).getLast? = some r := by
        rw [← List.cons_append]
        exact List.getLast?_concat _
      have hconst2 : ∀ x ∈ oh :: (ot ++ [r]), key_tuple fns x = key_tuple fns oh := by
        intro x hx
        simp only [List.mem_cons, List.mem_append, List.mem_singleton] at hx
        rcases hx with hx | hx | hx | hx
        · rw [hx]
        · exact hconst x (by simp [hx])
        · rw [hx]; exact hk
        · simp at hx
      obtain ⟨bs, pendF, fi, ft, h1, h2, h3, h4, h5, h6⟩ :=
        ih pend oh (ot ++ [r]) b hconst2 hlen
      have hlist : (oh :: (ot ++ [r])) ++ rs = (oh :: ot) ++ r :: rs := by simp
      rw [hpr] at h1
      rw [hlist] at h2 h5 h6
      have hoo : (oh :: ot) ++ [r] = oh :: (ot ++ [r]) := rfl
      rw [hoo]
      exact ⟨bs, pendF, fi, ft, h1, h2, h3, h4, h5, h6⟩
    · -- key change: close the open run, then absorb the row into a fresh run
      have htc : tuple_change fns ((oh :: ot).getLast?) r = true := by
        unfold tuple_change
        rw [hlr]
        simp [hklr]
        exact fun hcc => hk hcc.symm
      rw [mrun_cons_close fns init step out L _ r rs _ htc]
      have hruns : runs_by fns ((oh :: ot) ++ (r :: rs)) =
          (oh, ot) :: runs_by fns (r :: rs) :=
        runs_by_split fns oh ot (r :: rs) hconst
          (Or.inr (fun hd tl hh => by cases hh; exact hk))
      have hne2 : runs_by fns (r :: rs) ≠ [] := runs_by_ne_nil fns r rs
      rcases (by omega : pend.length + 1 = L ∨ pend.length + 1 < L) with hflush | hcont
      · -- the close flushes a full batch
        obtain ⟨hc1, hc2⟩ :=
          close_mstate_flush fns init step out L pend oh ot b hconst hflush
        rw [hc1, hc2 r]
        obtain ⟨bs, pendF, fi, ft, h1, h2, h3, h4, h5, h6⟩ :=
          ih [] r [] b (by intro x hx; simp only [List.mem_singleton] at hx; rw [hx])
            (by simpa using hL)
        rw [List.getLast?_singleton] at h1
        simp only [List.singleton_append, List.nil_append] at h2 h5 h6
        rw [h1]
        refine ⟨⟨echo_cols fns (pend ++ [(oh, ot)]),
            [(pend ++ [(oh, ot)]).map (run_agg init step out)], L⟩ :: bs,
          pendF, fi, ft, by rw [List.singleton_append], ?_, h3, h4, ?_, ?_⟩
        · rw [hruns, getLast?_cons_ne _ hne2]
          exact h2
        · rw [flat_g_cons]
          dsimp only
          rw [h5, ← echo_cols_app, hruns, dropLast_cons_ne _ hne2]
          rw [List.append_assoc, List.singleton_append]
        · rw [flat_a_cons]
          dsimp only
          rw [h6, cat_single, ← List.map_append, hruns, dropLast_cons_ne _ hne2]
          rw [List.append_assoc, List.singleton_append]
      · -- the close stays within the current partial batch
        obtain ⟨hc1, hc2⟩ :=
          close_mstate_cont fns init step out L pend oh ot b hconst hcont
        rw [hc1, hc2 r, List.nil_append]
        obtain ⟨bs, pendF, fi, ft, h1, h2, h3, h4, h5, h6⟩ :=
          ih (pend ++ [(oh, ot)]) r [] b
            (by intro x hx; simp only [List.mem_singleton] at hx; rw [hx])
            (by simpa using hcont)
        rw [List.getLast?_singleton] at h1
        simp only [List.singleton_append] at h2 h5 h6
        refine ⟨bs, pendF, fi, ft, h1, ?_, h3, h4, ?_, ?_⟩
        · rw [hruns, getLast?_cons_ne _ hne2]
          exact h2
        · rw [h5, hruns, dropLast_cons_ne _ hne2]
          rw [List.append_assoc, List.singleton_append]
        · rw [h6, hruns, dropLast_cons_ne _ hne2]
          rw [List.append_assoc, List.singleton_append]

end MrunRuns

section ChunksMachine

variable {K Row A S E : Type} [DecidableEq K]
variable (fns : List (Row → K)) (init : S) (step : S → Row → S) (out : S → A)

theorem set_flag_set_flag (c d : Bool) (st : AggSt K A S) :
    set_flag c (set_flag d st) = set_flag c st := rfl

theorem process_chunks_machine (L : Nat) :
    ∀ (chunks : List (List (Row × Bool))) (prev : Option Row) (st : AggSt K A S),
    st.sorted_groupers = groupers_of fns prev →
    st.agg_states.length = st.agg_builders.length →
    process_chunks (E := E) L (pure_exprs fns) (fold_update step)
        (fold_output out init) st chunks =
      ((mrun L fns init step out prev st (all_rows chunks)).1,
       .ok (set_flag (st.no_input_data && (all_rows chunks).isEmpty)
         (mrun L fns init step out prev st (all_rows chunks)).2.2)) := by
  intro chunks
  induction chunks with
  | nil =>
    intro prev st hg hl
    rw [show (st.no_input_data && (all_rows ([] : List (List (Row × Bool)))).isEmpty)
      = st.no_input_data from Bool.and_true _]
    rfl
  | cons c cs ih =>
    intro prev st hg hl
    have h1 := process_rows_machine fns init step out (E := E) L (compact c) prev
      (set_flag (st.no_input_data && (compact c).isEmpty) st) hg hl
    have hpc : process_chunk (E := E) L (pure_exprs fns) (fold_update step)
        (fold_output out init) st c =
        ((mrun L fns init step out prev st (compact c)).1,
         .ok (set_flag (st.no_input_data && (compact c).isEmpty)
           (mrun L fns init step out prev st (compact c)).2.2)) := by
      unfold process_chunk
      show process_rows L (pure_exprs fns) (fold_update step) (fold_output out init)
        (compact c) (set_flag (st.no_input_data && (compact c).isEmpty) st) = _
      rw [h1, mrun_flag fns init step out L (compact c) prev st]
    have hg2 : (set_flag (st.no_input_data && (compact c).isEmpty)
        (mrun L fns init step out prev st (compact c)).2.2).sorted_groupers =
        groupers_of fns (mrun L fns init step out prev st (compact c)).2.1 :=
      mrun_groupers fns init step out L (compact c) prev st hg
    have hl2 : (set_flag (st.no_input_data && (compact c).isEmpty)
        (mrun L fns init step out prev st (compact c)).2.2).agg_states.length =
        (set_flag (st.no_input_data && (compact c).isEmpty)
        (mrun L fns init step out prev st (compact c)).2.2).agg_builders.length :=
      mrun_lens fns init step out L (compact c) prev st hl
    have hrest := ih (mrun L fns init step out prev st (compact c)).2.1
      (set_flag (st.no_input_data && (compact c).isEmpty)
        (mrun L fns init step out prev st (compact c)).2.2) hg2 hl2
    rw [mrun_flag fns init step out L (all_rows cs)
      (mrun L fns init step out prev st (compact c)).2.1
      (mrun L fns init step out prev st (compact c)).2.2] at hrest
    simp only [process_chunks]
    rw [hpc]
    simp only []
    rw [hrest]
    have hall : all_rows (c :: cs) = compact c ++ all_rows cs := by
      simp [all_rows]
    rw [hall, mrun_append fns init step out L (compact c) (all_rows cs) prev st]
    simp only [set_flag_set_flag, set_flag, isEmpty_app, Bool.and_assoc]

end ChunksMachine

section Master

variable {K Row A S E : Type} [DecidableEq K]

theorem init_state_mstate (fns : List (Row → K)) (init : S) (step : S → Row → S)
    (out : S → A) (L : Nat) :
    init_state (E := E) L (pure_exprs fns) [init] =
      mstate L fns init step out [] [] true := by
  unfold init_state mstate create_builders pure_exprs echo_cols groupers_of run_agg
  simp [List.map_map, Function.comp_def, map_const_reps]

theorem sort_agg_master (fns : List (Row → K)) (init : S) (step : S → Row → S)
    (out : S → A) (L : Nat) (chunks : List (List (Row × Bool)))
    (hL : 1 ≤ L) (hfns : fns ≠ []) :
    (sort_agg_run (E := E) fns init step out L chunks).2 = none ∧
    out_group_cols fns.length (sort_agg_run (E := E) fns init step out L chunks).1 =
      echo_cols fns (runs_by fns (all_rows chunks)) ∧
    out_agg_cols 1 (sort_agg_run (E := E) fns init step out L chunks).1 =
      [(runs_by fns (all_rows chunks)).map (run_agg init step out)] := by
  have hke : (pure_exprs (E := E) fns).isEmpty = false := by
    cases fns with
    | nil => exact absurd rfl hfns
    | cons f fs => rfl
  have hg0 : (mstate L fns init step out [] [] true).sorted_groupers =
      groupers_of fns none := rfl
  have hl0 : (mstate L fns init step out [] [] true).agg_states.length =
      (mstate L fns init step out [] [] true).agg_builders.length := rfl
  have hpc := process_chunks_machine (E := E) fns init step out L chunks none
    (mstate L fns init step out [] [] true) hg0 hl0
  cases hR : all_rows chunks with
  | nil =>
    rw [hR] at hpc
    have hmr : mrun L fns init step out none (mstate L fns init step out [] [] true)
        [] = ([], (none, mstate L fns init step out [] [] true)) := rfl
    rw [hmr] at hpc
    have hrun : sort_agg_run (E := E) fns init step out L chunks = ([], none) := by
      unfold sort_agg_run do_execute
      rw [init_state_mstate fns init step out L, hpc]
      simp only [set_flag, List.isEmpty_nil, Bool.and_true, hke, Bool.not_false,
        Bool.and_self]
      rfl
    rw [hrun]
    refine ⟨rfl, ?_, rfl⟩
    unfold runs_by out_group_cols echo_cols
    simp [map_const_reps]
  | cons r rs =>
    rw [hR] at hpc
    have habs : absorb fns step r (mstate L fns init step out [] [] true) =
        mstate L fns init step out [] [r] true := by
      have := absorb_mstate fns init step out L [] [] true r
      simpa using this
    have hmr0 : mrun L fns init step out none
        (mstate L fns init step out [] [] true) (r :: rs) =
        mrun L fns init step out (some r) (mstate L fns init step out [] [r] true) rs := by
      rw [mrun_cons_cont fns init step out L none r rs _ rfl, habs]
    obtain ⟨bs, pendF, fi, ft, h1, h2, h3, h4, h5, h6⟩ :=
      mrun_mstate fns init step out L hL rs [] r [] true
        (by intro x hx; simp only [List.mem_singleton] at hx; rw [hx])
        (by simpa using hL)
    rw [List.getLast?_singleton] at h1
    simp only [List.singleton_append, List.nil_append] at h2 h5 h6
    rw [hmr0, h1] at hpc
    have hfb : set_flag ((mstate L fns init step out [] [] true).no_input_data &&
          (r :: rs).isEmpty)
        (mstate L fns init step out pendF (fi :: ft) true) =
        mstate L fns init step out pendF (fi :: ft) false := rfl
    rw [hfb] at hpc
    have hout := output_mstate_aggs (E := E) fns init step out L pendF fi ft false
    have hcols := output_mstate_cols fns init step out L pendF fi ft false h3
    have hrun : sort_agg_run (E := E) fns init step out L chunks =
        (bs ++ [⟨echo_cols fns (pendF ++ [(fi, ft)]),
          [(pendF ++ [(fi, ft)]).map (run_agg init step out)],
          L - (mstate L fns init step out pendF (fi :: ft) false).left_capacity + 1⟩],
         none) := by
      unfold sort_agg_run do_execute
      rw [init_state_mstate fns init step out L, hpc]
      simp only []
      rw [show (mstate L fns init step out pendF (fi :: ft) false).no_input_data = false
        from rfl]
      simp only [Bool.false_and, Bool.false_eq_true, if_false]
      rw [hout, hcols]
    rw [hrun]
    refine ⟨rfl, ?_, ?_⟩
    · rw [out_group_cols_app_one]
      simp only []
      rw [← echo_cols_len fns (pendF ++ [(fi, ft)]), cat_cols_reps_nil,
        echo_cols_app, flat_g_pull, h5, ← echo_cols_app,
        dropLast_append_getLast h2]
    · rw [out_agg_cols_app_one]
      simp only []
      rw [show (List.replicate 1 ([] : List A)) = [([] : List A)] from rfl, cat_single,
        List.append_nil, List.map_append]
      rw [show (((pendF.map (run_agg init step out)) ++
          ([(fi, ft)].map (run_agg init step out)))
            :: ([] : List (List A))) =
          cat_cols [pendF.map (run_agg init step out)]
            [[(fi, ft)].map (run_agg init step out)] from rfl]
      rw [flat_a_pull, h6, cat_single, ← List.map_append,
        dropLast_append_getLast h2]

end Master

section FirstOcc

variable {T K Row : Type} [DecidableEq T] [DecidableEq K]

theorem first_occ_fuel_congr : ∀ (f1 f2 : Nat) (l : List T), l.length ≤ f1 →
    l.length ≤ f2 → first_occ_fuel f1 l = first_occ_fuel f2 l := by
  intro f1
  induction f1 with
  | zero =>
    intro f2 l h1 h2
    cases l with
    | nil => cases f2 <;> rfl
    | cons x xs => simp at h1
  | succ n ih =>
    intro f2 l h1 h2
    cases l with
    | nil => cases f2 <;> rfl
    | cons x xs =>
      cases f2 with
      | zero => simp at h2
      | succ m =>
        show x :: first_occ_fuel n (xs.filter (fun y => y ≠ x)) =
          x :: first_occ_fuel m (xs.filter (fun y => y ≠ x))
        have hflt := List.length_filter_le (fun y => decide (y ≠ x)) xs
        refine congrArg (List.cons x) (ih m _ ?_ ?_)
        · simp only [List.length_cons] at h1
          omega
        · simp only [List.length_cons] at h2
          omega

theorem first_occurrences_cons (x : T) (xs : List T) :
    first_occurrences (x :: xs) =
      x :: first_occurrences (xs.filter (fun y => y ≠ x)) := by
  show x :: first_occ_fuel xs.length (xs.filter (fun y => y ≠ x)) =
    x :: first_occ_fuel (xs.filter (fun y => y ≠ x)).length
      (xs.filter (fun y => y ≠ x))
  exact congrArg (List.cons x)
    (first_occ_fuel_congr xs.length (xs.filter (fun y => y ≠ x)).length _
      (List.length_filter_le _ _) le_rfl)

theorem mem_runs_flatten : ∀ {l : List (Row × List Row)} {x : Row},
    x ∈ runs_flatten l → ∃ p ∈ l, x ∈ p.1 :: p.2
  | [], x, h => by simp [runs_flatten] at h
  | p :: t, x, h => by
    have hcons : runs_flatten (p :: t) = p.1 :: (p.2 ++ runs_flatten t) := rfl
    rw [hcons] at h
    rcases List.mem_cons.mp h with h | h
    · exact ⟨p, by simp, by simp [h]⟩
    · rcases List.mem_append.mp h with h | h
      · exact ⟨p, by simp, by simp [h]⟩
      · obtain ⟨q, hq, hxq⟩ := mem_runs_flatten h
        exact ⟨q, by simp [hq], hxq⟩

theorem runs_by_head_const (fns : List (Row → K)) (R : List Row) (h1 : Row)
    (t1 : List Row) (more : List (Row × List Row))
    (hx : runs_by fns R = (h1, t1) :: more) :
    ∀ x ∈ h1 :: t1, key_tuple fns x = key_tuple fns h1 := by
  intro x hxm
  rcases List.mem_cons.mp hxm with h | h
  · rw [h]
  · exact runs_by_run_const fns R (h1, t1) (by rw [hx]; simp) x h

theorem runs_by_tail_section (fns : List (Row → K)) :
    ∀ (rs : List Row) (p : Row × List Row) (more : List (Row × List Row)),
    runs_by fns rs = p :: more →
    runs_by fns (runs_flatten more) = more ∧
    ∀ q m2, more = q :: m2 → key_tuple fns q.1 ≠ key_tuple fns p.1 := by
  intro rs
  induction rs with
  | nil =>
    intro p more h
    simp [runs_by] at h
  | cons r rs ih =>
    intro p more h
    cases hr : runs_by fns rs with
    | nil =>
      rw [runs_by_cons_nil fns r rs hr] at h
      injection h with ha hb
      subst ha
      subst hb
      exact ⟨rfl, by intro q m2 hq; exact absurd hq (by simp)⟩
    | cons q0 more' =>
      obtain ⟨h1, t1⟩ := q0
      obtain ⟨ihA, ihB⟩ := ih (h1, t1) more' hr
      by_cases hk : key_tuple fns r = key_tuple fns h1
      · rw [runs_by_cons_eq fns r h1 rs t1 more' hr hk] at h
        injection h with ha hb
        subst ha
        subst hb
        refine ⟨ihA, ?_⟩
        intro q m2 hq
        have hb2 := ihB q m2 hq
        simp only []
        rw [hk]
        exact hb2
      · rw [runs_by_cons_ne fns r h1 rs t1 more' hr hk] at h
        injection h with ha hb
        subst ha
        subst hb
        constructor
        · show runs_by fns (h1 :: (t1 ++ runs_flatten more')) = (h1, t1) :: more'
          have hconst1 : ∀ x ∈ h1 :: t1, key_tuple fns x = key_tuple fns h1 :=
            runs_by_head_const fns rs h1 t1 more' hr
          have hrestc : runs_flatten more' = [] ∨
              ∀ hd tl, runs_flatten more' = hd :: tl →
                key_tuple fns hd ≠ key_tuple fns h1 := by
            cases more' with
            | nil => exact Or.inl rfl
            | cons q2 m2 =>
              refine Or.inr (fun hd tl hh => ?_)
              have hcons : runs_flatten (q2 :: m2) =
                  q2.1 :: (q2.2 ++ runs_flatten m2) := rfl
              rw [hcons] at hh
              injection hh with hh1 hh2
              rw [← hh1]
              exact ihB q2 m2 rfl
          have hsp := runs_by_split fns h1 t1 (runs_flatten more') hconst1 hrestc
          rw [show h1 :: (t1 ++ runs_flatten more') =
            (h1 :: t1) ++ runs_flatten more' from rfl, hsp, ihA]
        · intro q m2 hq
          injection hq with hqa hqb
          rw [← hqa]
          simp only []
          exact fun hc => hk hc.symm

theorem runs_keys_first_occ (fns : List (Row → K)) :
    ∀ (n : Nat) (R : List Row),
    (runs_by fns R).length ≤ n →
    List.Pairwise (fun a b => a ≠ b)
      ((runs_by fns R).map (fun q => key_tuple fns q.1)) →
    first_occurrences (R.map (key_tuple fns)) =
      (runs_by fns R).map (fun q => key_tuple fns q.1) := by
  intro n
  induction n with
  | zero =>
    intro R hlen hpw
    cases R with
    | nil => rfl
    | cons r rs =>
      cases hx : runs_by fns (r :: rs) with
      | nil => exact absurd hx (runs_by_ne_nil fns r rs)
      | cons p t => rw [hx] at hlen; simp at hlen
  | succ n ih =>
    intro R hlen hpw
    cases hx : runs_by fns R with
    | nil =>
      cases R with
      | nil => rfl
      | cons r rs => exact absurd hx (runs_by_ne_nil fns r rs)
    | cons p more =>
      obtain ⟨h1, t1⟩ := p
      have hRsplit : R = (h1 :: t1) ++ runs_flatten more :=
        runs_by_head fns R (h1, t1) more hx
      obtain ⟨htail, _⟩ := runs_by_tail_section fns R (h1, t1) more hx
      have hconst1 : ∀ x ∈ h1 :: t1, key_tuple fns x = key_tuple fns h1 :=
        runs_by_head_const fns R h1 t1 more hx
      rw [hx] at hpw
      rw [List.map_cons] at hpw
      obtain ⟨hhd, htlpw⟩ := List.pairwise_cons.mp hpw
      rw [hRsplit, List.map_append, List.map_cons, List.cons_append,
        first_occurrences_cons, List.filter_append]
      have hft : (t1.map (key_tuple fns)).filter
          (fun y => y ≠ key_tuple fns h1) = [] := by
        apply List.filter_eq_nil_iff.mpr
        intro a ha
        obtain ⟨x, hxm, rfl⟩ := List.mem_map.mp ha
        simp [hconst1 x (by simp [hxm])]
      have hfr : ((runs_flatten more).map (key_tuple fns)).filter
          (fun y => y ≠ key_tuple fns h1) = (runs_flatten more).map (key_tuple fns) := by
        apply List.filter_eq_self.mpr
        intro a ha
        obtain ⟨x, hxm, rfl⟩ := List.mem_map.mp ha
        obtain ⟨q, hq, hxq⟩ := mem_runs_flatten hxm
        have hkx : key_tuple fns x = key_tuple fns q.1 := by
          rcases List.mem_cons.mp hxq with h | h
          · rw [h]
          · exact runs_by_run_const fns (runs_flatten more) q
              (by rw [htail]; exact hq) x h
        have hne : key_tuple fns q.1 ≠ key_tuple fns h1 := by
          have := hhd (key_tuple fns q.1) (List.mem_map.mpr ⟨q, hq, rfl⟩)
          exact fun hc => this hc.symm
        simp [hkx, hne]
      rw [hft, hfr, List.nil_append]
      have hlen2 : (runs_by fns (runs_flatten more)).length ≤ n := by
        rw [htail]
        rw [hx] at hlen
        simp only [List.length_cons] at hlen
        omega
      have hpw2 : List.Pairwise (fun a b => a ≠ b)
          ((runs_by fns (runs_flatten more)).map (fun q => key_tuple fns q.1)) := by
        rw [htail]
        exact htlpw
      rw [ih (runs_flatten more) hlen2 hpw2, htail]
      rfl

theorem runs_keys_first_occurrences (fns : List (Row → K)) (R : List Row)
    (hpw : List.Pairwise (fun a b => a ≠ b)
      ((runs_by fns R).map (fun q => key_tuple fns q.1))) :
    first_occurrences (R.map (key_tuple fns)) =
      (runs_by fns R).map (fun q => key_tuple fns q.1) :=
  runs_keys_first_occ fns (runs_by fns R).length R le_rfl hpw

theorem tuple_cols_echo (fns : List (Row → K)) (runs : List (Row × List Row)) :
    tuple_cols fns.length (runs.map (fun q => key_tuple fns q.1)) =
      echo_cols fns runs := by
  induction runs with
  | nil => simp [tuple_cols, echo_cols, map_const_reps]
  | cons q t ih =>
    show cat_cols ((key_tuple fns q.1).map (fun k => [some k]))
      (tuple_cols fns.length (t.map (fun q => key_tuple fns q.1))) =
      echo_cols fns (q :: t)
    rw [ih]
    unfold key_tuple echo_cols cat_cols
    rw [List.map_map, zipWith_map_same]
    rfl

end FirstOcc

section RunClaims

/-- C1: for every input chunk sequence and every maximal contiguous run of
rows sharing the same key tuple (`runs_by` over the concatenated visible rows
`all_rows`), the driver instantiated with pure key projections and a fold
accumulator yields exactly one output row per run: the group-key-echo columns
list, in run order, exactly that run's key values, and the aggregate column
lists exactly the fold of the accumulator over that run's rows — independent
of how the runs are split across input chunk boundaries — and the output
stream ends without error. -/
theorem sort_agg_run_correctness {K Row A S E : Type} [DecidableEq K]
    (fns : List (Row → K)) (init : S) (step : S → Row → S) (out : S → A)
    (L : Nat) (chunks : List (List (Row × Bool)))
    (hL : 1 ≤ L) (hfns : fns ≠ []) :
    (sort_agg_run (E := E) fns init step out L chunks).2 = none ∧
    out_group_cols fns.length
        (sort_agg_run (E := E) fns init step out L chunks).1 =
      fns.map (fun f => (runs_by fns (all_rows chunks)).map (fun q => some (f q.1))) ∧
    out_agg_cols 1 (sort_agg_run (E := E) fns init step out L chunks).1 =
      [(runs_by fns (all_rows chunks)).map (run_agg init step out)] :=
  sort_agg_master fns init step out L chunks hL hfns

theorem sort_agg_run_correctness_witness :
    (1 ≤ 4 ∧ wFns ≠ []) ∧
    ((sort_agg_run (E := Unit) wFns 0 wStep id 4 [wChunk1, wChunk2]).2 = none ∧
     out_group_cols wFns.length
         (sort_agg_run (E := Unit) wFns 0 wStep id 4 [wChunk1, wChunk2]).1 =
       wFns.map (fun f => (runs_by wFns (all_rows [wChunk1, wChunk2])).map
         (fun q => some (f q.1))) ∧
     out_agg_cols 1
         (sort_agg_run (E := Unit) wFns 0 wStep id 4 [wChunk1, wChunk2]).1 =
       [(runs_by wFns (all_rows [wChunk1, wChunk2])).map (run_agg 0 wStep id)]) :=
  ⟨⟨by decide, by simp [wFns]⟩,
   sort_agg_run_correctness wFns 0 wStep id 4 [wChunk1, wChunk2] (by decide)
     (by simp [wFns])⟩

/-- C8: order preservation — when the input is sorted by the group key (each
key tuple forms one contiguous run, i.e. the run key tuples are pairwise
distinct), the group-key columns of all output batches, read in yield order,
spell exactly the first occurrences of the input rows' key tuples, in
input-stream order. -/
theorem sort_agg_order_preservation {K Row A S E : Type} [DecidableEq K]
    (fns : List (Row → K)) (init : S) (step : S → Row → S) (out : S → A)
    (L : Nat) (chunks : List (List (Row × Bool)))
    (hL : 1 ≤ L) (hfns : fns ≠ [])
    (hsorted : List.Pairwise (fun a b => a ≠ b)
      ((runs_by fns (all_rows chunks)).map (fun q => key_tuple fns q.1))) :
    out_group_cols fns.length
        (sort_agg_run (E := E) fns init step out L chunks).1 =
      tuple_cols fns.length
        (first_occurrences ((all_rows chunks).map (key_tuple fns))) := by
  obtain ⟨h0, h1, h2⟩ := sort_agg_master (E := E) fns init step out L chunks hL hfns
  rw [h1, runs_keys_first_occurrences fns (all_rows chunks) hsorted, tuple_cols_echo]

theorem sort_agg_order_preservation_witness :
    (1 ≤ 4 ∧ wFns ≠ [] ∧
     List.Pairwise (fun a b => a ≠ b)
       ((runs_by wFns (all_rows [wChunk1, wChunk2])).map
         (fun q => key_tuple wFns q.1))) ∧
    out_group_cols wFns.length
        (sort_agg_run (E := Unit) wFns 0 wStep id 4 [wChunk1, wChunk2]).1 =
      tuple_cols wFns.length
        (first_occurrences ((all_rows [wChunk1, wChunk2]).map (key_tuple wFns))) :=
  ⟨⟨by decide, by simp [wFns], by decide⟩,
   sort_agg_order_preservation wFns 0 wStep id 4 [wChunk1, wChunk2]
     (by decide) (by simp [wFns]) (by decide)⟩

end RunClaims
